import Mathlib

/-!
# Lume: the text-buffer edit/view model

A shallow embedding of `src/main_Lume.cpp` (row store, undo engine, edit
operations, cursor motion, key dispatcher, cursor-to-screen mapping, highlighter,
load/save), followed by the theorems that settle the properties of the model.

Conventions of the embedding.

* A `std::string` is a `List Char`; every character stands for one byte.
* A C++ `int` is an `Int`. Row lengths and row counts are far below `2^31`, so the
  casts `(int)row.size()` and the increments of `cx`/`cy` do not wrap.
* The global `undoStack` is a field of `World`, next to the `EditorState`.
* An operation that indexes a vector or a string returns `Option`: `none` stands for
  a fault of the C++ program (an exception such as `std::out_of_range`, or an access
  outside the container, which is undefined behaviour).
* Terminal painting is recorded as a list of painted cells.
-/

namespace Lume

/-! ## Data model -/

/-- One row of the buffer (`std::string`). -/
abbrev Row := List Char

/-- Configuration record `EditorConfig`; `keyMap` lists the entries of the
`unordered_map` in its iteration order. -/
structure EditorConfig where
  tabSize : Int := 4
  showLineNumbers : Bool := true
  keyMap : List (String × Int) := []
deriving DecidableEq, Repr

/-- Editor record `EditorState`. -/
structure EditorState where
  cx : Int := 0
  cy : Int := 0
  rowOffset : Int := 0
  colOffset : Int := 0
  screenRows : Int := 0
  screenCols : Int := 0
  quit : Bool := false
  dirty : Bool := false
  filename : String := ""
  rows : List Row := []
  config : EditorConfig := {}
deriving DecidableEq, Repr

/-- Semantic actions, `enum class Action`. -/
inductive Action where
  | MOVE_UP
  | MOVE_DOWN
  | MOVE_LEFT
  | MOVE_RIGHT
  | MOVE_WORD_LEFT
  | MOVE_WORD_RIGHT
  | QUIT
  | SAVE
  | UNDO
  | NONE
deriving DecidableEq, Repr

/-- Undo record `UndoSnapshot`: the whole row sequence and the cursor. -/
structure UndoSnapshot where
  rows : List Row
  cx : Int
  cy : Int
deriving DecidableEq, Repr

/-- The mutable program state: the editor record and the global `undoStack`
(a `std::vector`, oldest snapshot first, newest last). -/
structure World where
  E : EditorState := {}
  undoStack : List UndoSnapshot := []
deriving DecidableEq, Repr

/-- Capacity of the undo stack, `UNDO_LIMIT`. -/
def UNDO_LIMIT : Nat := 100

/-! ## Container accesses -/

/-- Element access `v[i]` of a `std::vector` with an `int` index: outside
`0 ≤ i < v.size()` the access is a fault. -/
def vecAt {α : Type} (v : List α) (i : Int) : Option α :=
  if 0 ≤ i then v[i.toNat]? else none

/-- Element access `s[i]` of a `std::string`: `s[s.size()]` is the terminating
NUL character, anything further out is a fault. -/
def strAt (s : Row) (i : Nat) : Option Char :=
  if i < s.length then s[i]? else if i = s.length then some (Char.ofNat 0) else none

/-- Character class `std::isspace` in the "C" locale: space, `\t`, `\n`, `\v`, `\f`, `\r`. -/
def isspace (c : Char) : Bool :=
  c.toNat = 32 || (9 ≤ c.toNat && c.toNat ≤ 13)

/-- Character class `std::isdigit`. -/
def isdigit (c : Char) : Bool :=
  48 ≤ c.toNat && c.toNat ≤ 57

/-- Character class `std::isalpha` in the "C" locale. -/
def isalpha (c : Char) : Bool :=
  (65 ≤ c.toNat && c.toNat ≤ 90) || (97 ≤ c.toNat && c.toNat ≤ 122)

/-- Character class `std::isalnum`. -/
def isalnum (c : Char) : Bool :=
  isalpha c || isdigit c

/-- Character class `std::isprint` on a key code: the codes 32..126. -/
def isprint (c : Int) : Bool :=
  32 ≤ c && c ≤ 126

/-- The tab character. -/
def TAB : Char := Char.ofNat 9

/-- The newline character. -/
def NEWLINE : Char := Char.ofNat 10

/-- The carriage-return character. -/
def CR : Char := Char.ofNat 13

/-- The double quote. -/
def DQUOTE : Char := Char.ofNat 34

/-- The single quote. -/
def SQUOTE : Char := Char.ofNat 39

/-- The backslash. -/
def BACKSLASH : Char := Char.ofNat 92

/-! ## Undo engine -/

/-- The snapshot `pushUndo` takes of an editor record. -/
def snapshotOf (E : EditorState) : UndoSnapshot :=
  { rows := E.rows, cx := E.cx, cy := E.cy }

/-- Append a snapshot to a stack and erase the first element when the size
exceeds `UNDO_LIMIT` (the body of `pushUndo` on the stack alone). -/
def pushSnap (stack : List UndoSnapshot) (snap : UndoSnapshot) : List UndoSnapshot :=
  let pushed := stack ++ [snap]
  if pushed.length > UNDO_LIMIT then pushed.drop 1 else pushed

/-- Source function `pushUndo`. -/
def pushUndo (w : World) : World :=
  { w with undoStack := pushSnap w.undoStack (snapshotOf w.E) }

/-- Source function `undo`: pops the newest snapshot, if any, and installs it. -/
def undo (w : World) : World :=
  match w.undoStack.getLast? with
  | none => w
  | some snap =>
    { E := { w.E with rows := snap.rows, cx := snap.cx, cy := snap.cy, dirty := true },
      undoStack := w.undoStack.dropLast }

/-! ## Edit operations -/

/-- Source function `insertChar`. -/
def insertChar (c : Char) (w : World) : Option World :=
  let w1 := pushUndo w
  let E := w1.E
  if E.cy < 0 ∨ E.cy > E.rows.length then some w1
  else
    let rows1 := if E.cy = E.rows.length then E.rows ++ [[]] else E.rows
    match vecAt rows1 E.cy with
    | none => none
    | some row =>
      let cx1 := if E.cx < 0 then 0 else E.cx
      let cx2 := if cx1 > row.length then (row.length : Int) else cx1
      if 0 ≤ cx2 ∧ cx2 ≤ row.length then
        some { w1 with
          E := { E with
            rows := rows1.set E.cy.toNat (row.take cx2.toNat ++ c :: row.drop cx2.toNat),
            cx := cx2 + 1,
            dirty := true } }
      else none

/-- Source function `insertNewline`. `row.substr(cx)` and `row.erase(cx)` throw
`std::out_of_range` unless `0 ≤ cx ≤ row.size()`. -/
def insertNewline (w : World) : Option World :=
  let w1 := pushUndo w
  let E := w1.E
  if E.cy < 0 ∨ E.cy > E.rows.length then some w1
  else if E.cy = E.rows.length then
    some { w1 with E := { E with rows := E.rows ++ [[]], cy := E.cy + 1, cx := 0 } }
  else
    match vecAt E.rows E.cy with
    | none => none
    | some row =>
      if 0 ≤ E.cx ∧ E.cx ≤ row.length then
        let newRow := row.drop E.cx.toNat
        let rows1 := E.rows.set E.cy.toNat (row.take E.cx.toNat)
        some { w1 with
          E := { E with
            rows := rows1.take (E.cy.toNat + 1) ++ newRow :: rows1.drop (E.cy.toNat + 1),
            cy := E.cy + 1,
            cx := 0,
            dirty := true } }
      else none

/-- Source function `deleteChar`. `row.erase(row.begin() + cx - 1)` needs
`cx - 1 < row.size()`, and `rows[cy - 1]` needs `cy ≥ 1`. -/
def deleteChar (w : World) : Option World :=
  let w1 := pushUndo w
  let E := w1.E
  if E.cy < 0 ∨ E.cy ≥ E.rows.length then some w1
  else if E.cx = 0 ∧ E.cy = 0 then some w1
  else
    match vecAt E.rows E.cy with
    | none => none
    | some row =>
      if E.cx > 0 then
        if E.cx - 1 < row.length then
          some { w1 with
            E := { E with
              rows := E.rows.set E.cy.toNat (row.eraseIdx (E.cx - 1).toNat),
              cx := E.cx - 1,
              dirty := true } }
        else none
      else
        match vecAt E.rows (E.cy - 1) with
        | none => none
        | some prev =>
          let rows1 := E.rows.set (E.cy - 1).toNat (prev ++ row)
          some { w1 with
            E := { E with
              rows := rows1.eraseIdx E.cy.toNat,
              cy := E.cy - 1,
              cx := prev.length,
              dirty := true } }

/-! ## Cursor motion -/

/-- The closing block of `moveCursor`: clamp `cx` to the length of the row. -/
def clampCx (E : EditorState) : Option EditorState :=
  if E.cy < E.rows.length then
    match vecAt E.rows E.cy with
    | none => none
    | some row => some (if E.cx > row.length then { E with cx := row.length } else E)
  else some { E with cx := 0 }

/-- The `switch` of `moveCursor`, before the clamp. -/
def moveCursorSwitch (action : Action) (E : EditorState) : Option EditorState :=
  match action with
  | Action.MOVE_UP => some (if E.cy > 0 then { E with cy := E.cy - 1 } else E)
  | Action.MOVE_DOWN => some (if E.cy + 1 < E.rows.length then { E with cy := E.cy + 1 } else E)
  | Action.MOVE_LEFT =>
    if E.cx > 0 then some { E with cx := E.cx - 1 }
    else if E.cy > 0 then
      match vecAt E.rows (E.cy - 1) with
      | none => none
      | some prev => some { E with cy := E.cy - 1, cx := prev.length }
    else some E
  | Action.MOVE_RIGHT =>
    if E.cy < E.rows.length then
      match vecAt E.rows E.cy with
      | none => none
      | some row =>
        let rowLen : Int := row.length
        if E.cx < rowLen then some { E with cx := E.cx + 1 }
        else if E.cx = rowLen ∧ E.cy + 1 < E.rows.length then
          some { E with cy := E.cy + 1, cx := 0 }
        else some E
    else some E
  | _ => some E

/-- Source function `moveCursor`. -/
def moveCursor (action : Action) (E : EditorState) : Option EditorState :=
  (moveCursorSwitch action E).bind clampCx

/-- The loop `while (x < len && p(row[x])) x++`, run on the part of the row from
`x` on: it returns the final `x`. -/
def scanRun (p : Char → Bool) : List Char → Nat → Nat
  | [], x => x
  | c :: cs, x => if p c then scanRun p cs (x + 1) else x

/-- The loop `while (x > 0 && p(row[x])) x--`; reading `row[x]` beyond the end of
the string is a fault. -/
def scanBack (p : Char → Bool) (row : Row) : Nat → Option Nat
  | 0 => some 0
  | x + 1 =>
    match strAt row (x + 1) with
    | none => none
    | some c => if p c then scanBack p row x else some (x + 1)

/-- Source function `moveWordRight`. -/
def moveWordRight (E : EditorState) : Option EditorState :=
  if E.cy ≥ E.rows.length then some E
  else
    match vecAt E.rows E.cy with
    | none => none
    | some row =>
      let len : Int := row.length
      let x := E.cx
      if x ≥ len then
        if E.cy + 1 < E.rows.length then some { E with cy := E.cy + 1, cx := 0 } else some E
      else if x < 0 then none
      else
        let x1 := scanRun (fun c => !isspace c) (row.drop x.toNat) x.toNat
        let x2 := scanRun isspace (row.drop x1) x1
        some { E with cx := x2 }

/-- Source function `moveWordLeft`. -/
def moveWordLeft (E : EditorState) : Option EditorState :=
  if E.cy ≥ E.rows.length then some E
  else
    match vecAt E.rows E.cy with
    | none => none
    | some row =>
      if E.cx = 0 then
        if E.cy > 0 then
          match vecAt E.rows (E.cy - 1) with
          | none => none
          | some prev => some { E with cy := E.cy - 1, cx := prev.length }
        else some E
      else
        let x := E.cx - 1
        if x < 0 then none
        else
          match scanBack isspace row x.toNat with
          | none => none
          | some x1 =>
            match scanBack (fun c => !isspace c) row x1 with
            | none => none
            | some x2 =>
              match strAt row x2 with
              | none => none
              | some c =>
                let x3 : Int := if isspace c ∧ (x2 : Int) < (row.length : Int) - 1 then x2 + 1 else x2
                some { E with cx := x3 }

/-! ## Key bindings and the dispatcher -/

/-- Key code `KEY_DOWN` of ncurses. -/
def KEY_DOWN : Int := 258

/-- Key code `KEY_UP` of ncurses. -/
def KEY_UP : Int := 259

/-- Key code `KEY_LEFT` of ncurses. -/
def KEY_LEFT : Int := 260

/-- Key code `KEY_RIGHT` of ncurses. -/
def KEY_RIGHT : Int := 261

/-- Key code `KEY_HOME` of ncurses. -/
def KEY_HOME : Int := 262

/-- Key code `KEY_BACKSPACE` of ncurses. -/
def KEY_BACKSPACE : Int := 263

/-- Key code `KEY_NPAGE` of ncurses (page down). -/
def KEY_NPAGE : Int := 338

/-- Key code `KEY_PPAGE` of ncurses (page up). -/
def KEY_PPAGE : Int := 339

/-- Key code `KEY_END` of ncurses. -/
def KEY_END : Int := 360

/-- The define `CTRL_LEFT`. -/
def CTRL_LEFT : Int := 554

/-- The define `CTRL_RIGHT`. -/
def CTRL_RIGHT : Int := 569

/-- The define `CTRL_KEY(k)`, `k & 0x1f`. -/
def CTRL_KEY (k : Char) : Int := (k.toNat % 32 : Nat)

/-- The assignment `m[name] = code` on the key map: an existing entry keeps its
place, a new entry is listed last (the iteration order of an `unordered_map` is
not specified; this is the order the model fixes). -/
def mapAssign (m : List (String × Int)) (name : String) (code : Int) : List (String × Int) :=
  match m with
  | [] => [(name, code)]
  | (n, k) :: rest => if n = name then (n, code) :: rest else (n, k) :: mapAssign rest name code

/-- Source function `setDefaultKeybindings`. -/
def setDefaultKeybindings (conf : EditorConfig) : EditorConfig :=
  let m := conf.keyMap
  let m := mapAssign m "quit" (CTRL_KEY 'q')
  let m := mapAssign m "save" (CTRL_KEY 's')
  let m := mapAssign m "move_up" KEY_UP
  let m := mapAssign m "move_down" KEY_DOWN
  let m := mapAssign m "move_left" KEY_LEFT
  let m := mapAssign m "move_right" KEY_RIGHT
  let m := mapAssign m "move_word_left" CTRL_LEFT
  let m := mapAssign m "move_word_right" CTRL_RIGHT
  let m := mapAssign m "undo" (CTRL_KEY 'z')
  { conf with keyMap := m }

/-- The chain of name tests in `mapKeyToAction`; `none` when no test matches and
the scan goes on. -/
def actionOfName (actionName : String) : Option Action :=
  if actionName = "quit" then some Action.QUIT
  else if actionName = "save" then some Action.SAVE
  else if actionName = "move_up" then some Action.MOVE_UP
  else if actionName = "move_down" then some Action.MOVE_DOWN
  else if actionName = "move_left" then some Action.MOVE_LEFT
  else if actionName = "move_right" then some Action.MOVE_RIGHT
  else if actionName = "move_word_left" then some Action.MOVE_WORD_LEFT
  else if actionName = "move_word_right" then some Action.MOVE_WORD_RIGHT
  else if actionName = "undo" then some Action.UNDO
  else none

/-- The `for` loop of `mapKeyToAction` over the entries of the key map. -/
def mapKeyLoop (key : Int) : List (String × Int) → Action
  | [] => Action.NONE
  | kv :: rest =>
    if kv.2 = key then
      match actionOfName kv.1 with
      | some a => a
      | none => mapKeyLoop key rest
    else mapKeyLoop key rest

/-- Source function `mapKeyToAction`. -/
def mapKeyToAction (E : EditorState) (key : Int) : Action :=
  mapKeyLoop key E.config.keyMap

/-! ## Load and save -/

/-- The write loop of `saveFile`: every row, and a newline after each row that
has a successor. -/
def writeRows : List Row → List Char
  | [] => []
  | [r] => r
  | r :: r2 :: rest => r ++ NEWLINE :: writeRows (r2 :: rest)

/-- Source function `saveFile`. `openOk` tells whether the output stream could be
opened; the second component is the content written to the file, if any. -/
def saveFile (openOk : Bool) (E : EditorState) : EditorState × Option (List Char) :=
  if E.filename = "" then (E, none)
  else if !openOk then (E, none)
  else ({ E with dirty := false }, some (writeRows E.rows))

/-- Library function `std::getline` on the rest of a stream: `none` when no
character could be extracted; otherwise the line (without the newline, which is
consumed) and the rest of the stream. -/
def getline : List Char → Option (Row × List Char)
  | [] => none
  | c :: cs =>
    if c = NEWLINE then some ([], cs)
    else
      match getline cs with
      | none => some ([c], [])
      | some (line, rest) => some (c :: line, rest)

/-- The statement `if (!line.empty() && line.back() == '\r') line.pop_back();`. -/
def stripCR (line : Row) : Row :=
  if line ≠ [] ∧ line.getLast? = some CR then line.dropLast else line

/-- The read loop of `openFile`; each turn consumes at least one character, so
`fuel` = length of the stream is enough. -/
def readRows : Nat → List Char → List Row
  | 0, _ => []
  | fuel + 1, inp =>
    match getline inp with
    | none => []
    | some (line, rest) => stripCR line :: readRows fuel rest

/-- Source function `openFile`. `content` is the content of the file, `none` when
the file cannot be opened. -/
def openFile (content : Option (List Char)) (filename : String) (E : EditorState) : EditorState :=
  let E1 := { E with filename := filename, rows := [] }
  match content with
  | none => E1
  | some inp => { E1 with rows := readRows inp.length inp }

/-! ## The key dispatcher -/

/-- Lift an operation on the editor record to the world. -/
def onEditor (f : EditorState → Option EditorState) (w : World) : Option World :=
  (f w.E).map (fun E1 => { w with E := E1 })

/-- The second `switch` of `editorProcessKeypress`, on the raw key code. -/
def processRawKey (c : Int) (w : World) : Option World :=
  let E := w.E
  if c = KEY_HOME then some { w with E := { E with cx := 0 } }
  else if c = KEY_END then
    if E.cy < E.rows.length then
      match vecAt E.rows E.cy with
      | none => none
      | some row => some { w with E := { E with cx := row.length } }
    else some w
  else if c = KEY_PPAGE then
    let cy1 := E.cy - E.screenRows
    some { w with E := { E with cy := if cy1 < 0 then 0 else cy1 } }
  else if c = KEY_NPAGE then
    let cy1 := E.cy + E.screenRows
    let cy2 : Int :=
      if cy1 ≥ E.rows.length then (if E.rows.isEmpty then 0 else (E.rows.length : Int) - 1) else cy1
    some { w with E := { E with cy := cy2 } }
  else if c = KEY_BACKSPACE ∨ c = 127 then deleteChar w
  else if c = 13 ∨ c = 10 then insertNewline w
  else if c = 9 then
    (insertChar TAB (pushUndo w)).map (fun w1 => { w1 with E := { w1.E with dirty := true } })
  else if isprint c then insertChar (Char.ofNat c.toNat) w
  else some w

/-- Source function `editorProcessKeypress`; `c` is the key code returned by
`getch()`. -/
def editorProcessKeypress (openOk : Bool) (c : Int) (w : World) : Option World :=
  match mapKeyToAction w.E c with
  | Action.QUIT => some { w with E := { w.E with quit := true } }
  | Action.SAVE => some { w with E := (saveFile openOk w.E).1 }
  | Action.MOVE_UP => onEditor (moveCursor Action.MOVE_UP) w
  | Action.MOVE_DOWN => onEditor (moveCursor Action.MOVE_DOWN) w
  | Action.MOVE_LEFT => onEditor (moveCursor Action.MOVE_LEFT) w
  | Action.MOVE_RIGHT => onEditor (moveCursor Action.MOVE_RIGHT) w
  | Action.MOVE_WORD_LEFT => onEditor moveWordLeft w
  | Action.MOVE_WORD_RIGHT => onEditor moveWordRight w
  | Action.UNDO => some (undo w)
  | Action.NONE => processRawKey c w


/-! ## Cursor-to-screen mapping -/

/-- The `for` loop of `computeScreenX`, run on the part of the row from index `i`
on, with the running column `screenX`. A tab with `tabSize = 0` divides by zero. -/
def screenXLoop (tabSize cx : Int) : List Char → Nat → Int → Option Int
  | [], _, screenX => some screenX
  | c :: cs, i, screenX =>
    if (i : Int) < cx then
      if c = TAB then
        if tabSize = 0 then none
        else screenXLoop tabSize cx cs (i + 1) (screenX + (tabSize - Int.tmod screenX tabSize))
      else screenXLoop tabSize cx cs (i + 1) (screenX + 1)
    else some screenX

/-- Source function `computeScreenX`. -/
def computeScreenX (E : EditorState) : Option Int :=
  if E.cy ≥ E.rows.length then some 0
  else
    match vecAt E.rows E.cy with
    | none => none
    | some row => screenXLoop E.config.tabSize E.cx row 0 0

/-! ## Highlighter -/

/-- The keyword table of `isKeyword`. -/
def keywords : List String :=
  ["if", "else", "for", "while", "switch", "case", "default", "break", "continue",
   "return", "goto", "do", "sizeof", "typedef", "static", "const", "volatile",
   "inline", "struct", "class", "public", "private", "protected", "virtual",
   "override", "template", "typename", "using", "namespace", "enum", "union",
   "new", "delete", "this", "operator", "try", "catch", "throw"]

/-- The type-name table of `isTypeLike`. -/
def typeNames : List String :=
  ["int", "long", "short", "char", "float", "double", "void", "bool",
   "unsigned", "signed", "auto", "std", "string", "size_t"]

/-- Source function `isKeyword`. -/
def isKeyword (word : Row) : Bool :=
  keywords.contains (String.mk word)

/-- Source function `isTypeLike`. -/
def isTypeLike (word : Row) : Bool :=
  typeNames.contains (String.mk word)

/-- One painted screen cell: its column, the character and the colour pair in
force (0: no colour attribute, 1: keyword, 2: type, 4: comment, 5: string,
6: number). -/
structure Cell where
  col : Int
  ch : Char
  pair : Nat
deriving DecidableEq, Repr

/-- Cells `col, col+1, ...` for the characters of `str`. -/
def cellsFrom (pair : Nat) : Int → List Char → List Cell
  | _, [] => []
  | col, c :: cs => { col := col, ch := c, pair := pair } :: cellsFrom pair (col + 1) cs

/-- Library call `mvaddnstr(y, col, str, n)` under colour `pair`: at most `n`
characters of `str`, the whole of it when `n` is negative. -/
def mvaddnstr (col : Int) (str : List Char) (n : Int) (pair : Nat) : List Cell :=
  if n < 0 then cellsFrom pair col str else cellsFrom pair col (str.take n.toNat)

/-- Library call `mvaddch(y, col, c)` under colour `pair`. -/
def mvaddch (col : Int) (c : Char) (pair : Nat) : List Cell :=
  [{ col := col, ch := c, pair := pair }]

/-- The local variables of `drawHighlightedLine`. -/
structure DrawState where
  x : Nat := 0
  screenCol : Int := 0
  inString : Bool := false
  stringChar : Char := Char.ofNat 0
  inLineComment : Bool := false
deriving DecidableEq, Repr

/-- The test `c == '/' && x + 1 < row.size() && row[x+1] == '/'` in state
`!inString && !inLineComment`. -/
def commentStart (row : Row) (st : DrawState) (c : Char) : Bool :=
  !st.inString && !st.inLineComment && c = '/' && decide (st.x + 1 < row.length) &&
    row[st.x + 1]? = some '/'

/-- The test `c == stringChar && (x == 0 || row[x-1] != '\\')`. -/
def closesString (row : Row) (st : DrawState) (c : Char) : Bool :=
  c = st.stringChar && (st.x = 0 || row[st.x - 1]? ≠ some BACKSLASH)

/-- The inner loop of the tab branch: `spaces` blanks while the column limit
allows; it returns the cells and the new `screenCol`. -/
def paintTab (startCol maxCols : Int) : Nat → Int → List Cell × Int
  | 0, screenCol => ([], screenCol)
  | spaces + 1, screenCol =>
    if screenCol - startCol < maxCols then
      let r := paintTab startCol maxCols spaces (screenCol + 1)
      ({ col := screenCol, ch := ' ', pair := 0 } :: r.1, r.2)
    else ([], screenCol)

/-- The `while` loop of `drawHighlightedLine`, one turn per unit of `fuel`; the
result is the list of painted cells in painting order. Every turn advances `x`,
so `fuel` = length of the row + 1 is never used up; `none` is a fault (division
by `tabSize = 0`) or used-up fuel. -/
def drawLoop (row : Row) (colOffset startCol maxCols tabSize : Int) :
    Nat → DrawState → Option (List Cell)
  | 0, _ => none
  | fuel + 1, st =>
    if ¬ (st.x < row.length ∧ st.screenCol - startCol < maxCols) then some []
    else
      match row[st.x]? with
      | none => none
      | some c =>
        if st.screenCol < startCol + colOffset then
          let st1 : DrawState :=
            if commentStart row st c then { st with inLineComment := true }
            else if !st.inLineComment && (c = DQUOTE || c = SQUOTE) then
              { st with inString := true, stringChar := c }
            else if st.inString && closesString row st c then { st with inString := false }
            else st
          drawLoop row colOffset startCol maxCols tabSize fuel
            { st1 with x := st.x + 1, screenCol := st.screenCol + 1 }
        else if commentStart row st c then
          some (mvaddnstr st.screenCol (row.drop st.x)
            (min (maxCols - (st.screenCol - startCol)) ((row.length : Int) - st.x)) 4)
        else if !st.inLineComment && (c = DQUOTE || c = SQUOTE) then
          (drawLoop row colOffset startCol maxCols tabSize fuel
            { st with inString := true, stringChar := c, x := st.x + 1,
                      screenCol := st.screenCol + 1 }).map
            (fun rest => mvaddch st.screenCol c 5 ++ rest)
        else if st.inString then
          let st1 : DrawState := if closesString row st c then { st with inString := false } else st
          (drawLoop row colOffset startCol maxCols tabSize fuel
            { st1 with x := st.x + 1, screenCol := st.screenCol + 1 }).map
            (fun rest => mvaddch st.screenCol c 5 ++ rest)
        else if isdigit c then
          let x1 := scanRun (fun d => isdigit d || d = '.') (row.drop st.x) st.x
          let len : Int := (x1 : Int) - st.x
          (drawLoop row colOffset startCol maxCols tabSize fuel
            { st with x := x1, screenCol := st.screenCol + len }).map
            (fun rest => mvaddnstr st.screenCol (row.drop st.x)
              (min len (maxCols - (st.screenCol - startCol))) 6 ++ rest)
        else if isalpha c || c = '_' then
          let x1 := scanRun (fun d => isalnum d || d = '_') (row.drop st.x) st.x
          let len : Int := (x1 : Int) - st.x
          let word := (row.drop st.x).take (x1 - st.x)
          let pair := if isKeyword word then 1 else if isTypeLike word then 2 else 0
          (drawLoop row colOffset startCol maxCols tabSize fuel
            { st with x := x1, screenCol := st.screenCol + len }).map
            (fun rest => mvaddnstr st.screenCol (row.drop st.x)
              (min len (maxCols - (st.screenCol - startCol))) pair ++ rest)
        else if c = TAB then
          if tabSize = 0 then none
          else
            let spaces := tabSize - Int.tmod (st.screenCol - startCol) tabSize
            let r := paintTab startCol maxCols spaces.toNat st.screenCol
            (drawLoop row colOffset startCol maxCols tabSize fuel
              { st with x := st.x + 1, screenCol := r.2 }).map
              (fun rest => r.1 ++ rest)
        else
          (drawLoop row colOffset startCol maxCols tabSize fuel
            { st with x := st.x + 1, screenCol := st.screenCol + 1 }).map
            (fun rest => mvaddch st.screenCol c 0 ++ rest)

/-- Source function `drawHighlightedLine`; the screen row `y` is the same for
every cell and is left out. -/
def drawHighlightedLine (row : Row) (colOffset startCol maxCols : Int) (E : EditorState) :
    Option (List Cell) :=
  drawLoop row colOffset startCol maxCols E.config.tabSize (row.length + 1)
    { x := 0, screenCol := startCol }

/-! ## Viewport -/

/-- Source function `editorScroll`. -/
def editorScroll (E : EditorState) : EditorState :=
  let E1 := if E.cy < E.rowOffset then { E with rowOffset := E.cy } else E
  let E2 :=
    if E1.cy ≥ E1.rowOffset + E1.screenRows then
      { E1 with rowOffset := E1.cy - E1.screenRows + 1 }
    else E1
  let E3 := if E2.cx < E2.colOffset then { E2 with colOffset := E2.cx } else E2
  let E4 :=
    if E3.cx ≥ E3.colOffset + E3.screenCols then
      { E3 with colOffset := E3.cx - E3.screenCols + 1 }
    else E3
  E4

/-! ## Configuration file -/

/-- The lambda `trim` of `loadConfig`: erase the leading, then the trailing
whitespace. -/
def trim (s : List Char) : List Char :=
  ((s.dropWhile isspace).reverse.dropWhile isspace).reverse

/-- Library function `std::atoi`: leading whitespace, an optional sign, then the
longest run of decimal digits; 0 when there is no digit. -/
def atoi (s : List Char) : Int :=
  let s1 := s.dropWhile isspace
  let neg := s1.head? = some '-'
  let s2 := if s1.head? = some '-' ∨ s1.head? = some '+' then s1.drop 1 else s1
  let v : Int := (s2.takeWhile isdigit).foldl (fun acc d => acc * 10 + ((d.toNat - 48 : Nat) : Int)) 0
  if neg then -v else v

/-- Library function `std::tolower` in the "C" locale. -/
def tolower (c : Char) : Char :=
  if 65 ≤ c.toNat ∧ c.toNat ≤ 90 then Char.ofNat (c.toNat + 32) else c

/-- Source function `parseKeyString`. -/
def parseKeyString (keyStr : List Char) : Int :=
  if keyStr = "ArrowUp".toList then KEY_UP
  else if keyStr = "ArrowDown".toList then KEY_DOWN
  else if keyStr = "ArrowLeft".toList then KEY_LEFT
  else if keyStr = "ArrowRight".toList then KEY_RIGHT
  else if keyStr = "PageUp".toList then KEY_PPAGE
  else if keyStr = "PageDown".toList then KEY_NPAGE
  else if keyStr = "Home".toList then KEY_HOME
  else if keyStr = "End".toList then KEY_END
  else if keyStr = "Ctrl-ArrowLeft".toList then 554
  else if keyStr = "Ctrl-ArrowRight".toList then 569
  else if keyStr.take 5 = "Ctrl-".toList ∧ keyStr.length = 6 ∧
      isalpha (keyStr.getD 5 (Char.ofNat 0)) then
    CTRL_KEY (tolower (keyStr.getD 5 (Char.ofNat 0)))
  else if keyStr.length = 1 then (keyStr.headD (Char.ofNat 0)).toNat
  else -1

/-- The lines `std::getline` yields from a stream, one per unit of `fuel`; each
call consumes at least one character, so `fuel` = length of the stream is
enough. -/
def readLines : Nat → List Char → List (List Char)
  | 0, _ => []
  | fuel + 1, inp =>
    match getline inp with
    | none => []
    | some (line, rest) => line :: readLines fuel rest

/-- One turn of the `while` loop of `loadConfig`: the current section and the
configuration before and after the line. -/
def configLine (st : List Char × EditorConfig) (rawLine : List Char) :
    List Char × EditorConfig :=
  let line := trim rawLine
  if line = [] ∨ line.head? = some '#' then st
  else if line.head? = some '[' ∧ line.getLast? = some ']' then
    (trim ((line.drop 1).take (line.length - 2)), st.2)
  else if '=' ∉ line then st
  else
    let key := trim (line.takeWhile (fun c => c ≠ '='))
    let value0 := trim ((line.dropWhile (fun c => c ≠ '=')).drop 1)
    let value :=
      if value0 ≠ [] ∧ value0.head? = some DQUOTE ∧ value0.getLast? = some DQUOTE then
        (value0.drop 1).take (value0.length - 2)
      else value0
    if st.1 = "options".toList then
      if key = "tabsize".toList then (st.1, { st.2 with tabSize := atoi value })
      else if key = "show_line_numbers".toList then
        (st.1, { st.2 with
          showLineNumbers := decide (value = "true".toList ∨ value = "1".toList) })
      else st
    else if st.1 = "keys".toList then
      let kcode := parseKeyString key
      if kcode ≠ -1 then
        (st.1, { st.2 with keyMap := mapAssign st.2.keyMap (String.mk value) kcode })
      else st
    else st

/-- Source function `loadConfig`. `content` is the content of the configuration
file, `none` when the file cannot be opened. -/
def loadConfig (content : Option (List Char)) (conf : EditorConfig) : EditorConfig :=
  let conf1 := setDefaultKeybindings conf
  match content with
  | none => conf1
  | some inp => ((readLines inp.length inp).foldl configLine ([], conf1)).2

/-! ## Painting one frame -/

/-- The width of the line-number column in `drawRows` and `editorRefreshScreen`:
the number of decimal digits of `max(1, rows.size())` plus one, or 0 without
line numbers. -/
def lineNumberWidth (E : EditorState) : Int :=
  if E.config.showLineNumbers then
    ((Nat.toDigits 10 (max 1 E.rows.length)).length : Int) + 1
  else 0

/-- The coloured branch of `drawRows` for the buffer row `fileRow`: the call of
`drawHighlightedLine` with `startCol = lineNumberWidth` and the clamped column
limit. -/
def drawRowColoured (E : EditorState) (fileRow : Int) : Option (List Cell) :=
  match vecAt E.rows fileRow with
  | none => none
  | some row =>
    let maxCols := E.screenCols - lineNumberWidth E
    drawHighlightedLine row E.colOffset (lineNumberWidth E) (if maxCols < 0 then 0 else maxCols) E

/-- The cursor placement at the end of `editorRefreshScreen`, in the state left by
`editorScroll`: the arguments `(screenY, screenX)` of the final `move`. -/
def cursorPlacement (E : EditorState) : Option (Int × Int) :=
  match computeScreenX E with
  | none => none
  | some sx =>
    let screenY := E.cy - E.rowOffset
    let screenX := sx - E.colOffset + lineNumberWidth E
    let screenY := if screenY < 0 then 0 else screenY
    let screenY := if screenY ≥ E.screenRows then E.screenRows - 1 else screenY
    let screenX := if screenX < 0 then 0 else screenX
    let screenX := if screenX ≥ E.screenCols then E.screenCols - 1 else screenX
    some (screenY, screenX)

/-- Source function `editorRefreshScreen`: the state after `editorScroll` and the
position the cursor is moved to; the painting of the rows is `drawRowColoured`. -/
def editorRefreshScreen (E : EditorState) : Option (EditorState × Int × Int) :=
  (cursorPlacement (editorScroll E)).map (fun p => (editorScroll E, p.1, p.2))

/-- The column reached in `drawRows` after the line number of the buffer row
`fileRow` is written: `snprintf` with the format `"%*d "` and the field width
`lineNumberWidth - 1` gives the digits of `fileRow + 1`, padded on the left to the
field width, and one blank; 0 without line numbers. -/
def textStartCol (E : EditorState) (fileRow : Int) : Int :=
  if E.config.showLineNumbers then
    max (lineNumberWidth E - 1) ((Nat.toDigits 10 (fileRow + 1).toNat).length : Int) + 1
  else 0

/-- The plain branch of `drawRows` for the buffer row `fileRow`: `addnstr` of at
most `len` bytes from `row.c_str() + colOffset`, at the column after the line
number. A negative `colOffset` points before the string. -/
def drawRowPlain (E : EditorState) (fileRow : Int) : Option (List Cell) :=
  match vecAt E.rows fileRow with
  | none => none
  | some row =>
    let len0 : Int := (row.length : Int) - E.colOffset
    let len1 : Int := if len0 < 0 then 0 else len0
    let len : Int :=
      if len1 > E.screenCols - lineNumberWidth E then E.screenCols - lineNumberWidth E else len1
    if len > 0 then
      if E.colOffset < 0 then none
      else some (mvaddnstr (textStartCol E fileRow) (row.drop E.colOffset.toNat) len 0)
    else some []

/-- The text part of one row of `drawRows`: the coloured branch when the
terminal has colours, the plain branch otherwise. -/
def drawTextRow (hasColors : Bool) (E : EditorState) (fileRow : Int) : Option (List Cell) :=
  if hasColors then drawRowColoured E fileRow else drawRowPlain E fileRow

/-! ## Sequences of edits and of undos -/

/-- One edit operation of the row store. -/
inductive EditOp where
  | insertChar (c : Char)
  | insertNewline
  | deleteChar
deriving DecidableEq, Repr

/-- Run one edit operation. -/
def applyEdit : EditOp → World → Option World
  | EditOp.insertChar c, w => insertChar c w
  | EditOp.insertNewline, w => insertNewline w
  | EditOp.deleteChar, w => deleteChar w

/-- Run a sequence of edit operations, first to last. -/
def applyEdits : List EditOp → World → Option World
  | [], w => some w
  | op :: ops, w => (applyEdit op w).bind (applyEdits ops)

/-- Call `undo` `n` times in a row. -/
def undoTimes : Nat → World → World
  | 0, w => w
  | n + 1, w => undo (undoTimes n w)

/-- Fold of `pushSnap` over a list of snapshots, first to last. -/
def pushAll (stack : List UndoSnapshot) (snaps : List UndoSnapshot) : List UndoSnapshot :=
  snaps.foldl pushSnap stack

/-- The undo stack after `pushUndo` was called once in each of the listed editor
states, first to last, starting from `stack`. -/
def pushUndoEach (stack : List UndoSnapshot) (es : List EditorState) : List UndoSnapshot :=
  es.foldl (fun st E => (pushUndo { E := E, undoStack := st }).undoStack) stack

/-- Run the dispatcher on a sequence of key codes, first to last. -/
def runKeys (openOk : Bool) : List Int → World → Option World
  | [], w => some w
  | c :: cs, w => (editorProcessKeypress openOk c w).bind (runKeys openOk cs)

/-- The state `main` starts the key loop in when no file is given: empty buffer,
cursor at the origin, default key bindings, the given window size. -/
def initialWorld (screenRows screenCols : Int) : World :=
  { E := { screenRows := screenRows, screenCols := screenCols,
           config := setDefaultKeybindings {} },
    undoStack := [] }

/-- The state with rows `"ab"`, `""` and the cursor at `cx = 2` on the empty
second row. -/
def shortRowState : World :=
  { E := { cx := 2, cy := 1, rows := [['a', 'b'], []] } }

/-- The row `x = "a//b";`. -/
def stringRow : Row := ['x', ' ', '=', ' ', DQUOTE, 'a', '/', '/', 'b', DQUOTE, ';']

/-- The editor states numbered `0 .. 100`, told apart by their `cx`. -/
def numberedStates : List EditorState :=
  (List.range 101).map (fun i => { cx := i })

/-! ## Specification-side definitions -/

/-- The step of the fold of the specification: one column for an ordinary
character, `tabSize - (col mod tabSize)` columns for a tab. -/
def tabAdvance (tabSize : Int) (col : Int) (c : Char) : Int :=
  if c = TAB then col + (tabSize - col % tabSize) else col + 1

/-- The cursor column as the specification words it: the fold of `tabAdvance` over
`row[0..cx)`, from column 0. -/
def screenXSpec (tabSize : Int) (row : Row) (cx : Nat) : Int :=
  (row.take cx).foldl (tabAdvance tabSize) 0

/-- Position `x` holds the first character of a word: `row[x]` is not whitespace
and `x = 0` or `row[x-1]` is whitespace. -/
def atWordStart (row : Row) (x : Nat) : Bool :=
  (match row[x]? with
   | some c => !isspace c
   | none => false) &&
  (x = 0 ||
    match row[x - 1]? with
    | some d => isspace d
    | none => false)

/-- Some line of the content ends in a carriage return: a CR stands right before
a newline or at the very end. -/
def lineEndsInCR : List Char → Bool
  | [] => false
  | [c] => c = CR
  | c :: d :: rest => (c = CR && d = NEWLINE) || lineEndsInCR (d :: rest)

/-- The content ends in a newline character. -/
def endsInNewline (content : List Char) : Bool :=
  content.getLast? = some NEWLINE

/-- Loading `content` and saving the unmodified rows: the content written to the
file (`none` when nothing is written). -/
def loadThenSave (content : List Char) (filename : String) (E : EditorState) :
    Option (List Char) :=
  (saveFile true (openFile (some content) filename E)).2

/-- The content `a`, CR, newline, `b`. -/
def crlfContent : List Char := ['a', CR, NEWLINE, 'b']

/-- The row `foo  bar`. -/
def fooBarRow : Row := ['f', 'o', 'o', ' ', ' ', 'b', 'a', 'r']

/-- The row of two blanks and an `a`. -/
def blankLedRow : Row := [' ', ' ', 'a']

/-- A state whose cursor lies below and to the right of the window. -/
def scrolledOutState : EditorState :=
  { cx := 100, cy := 50, screenRows := 23, screenCols := 80 }

/-- The state with rows `ab`, `cd` and the cursor at the start of the second row. -/
def twoRowState : World :=
  { E := { cx := 0, cy := 1, rows := [['a', 'b'], ['c', 'd']] } }

/-- The state with the single row `abcd` and the cursor at `cx = 2`. -/
def midRowState : World :=
  { E := { cx := 2, cy := 0, rows := [['a', 'b', 'c', 'd']] } }

/-- The claim's reading of key resolution: the action named by the first entry
whose key code equals `key` (no action when that name is not an action name),
and no action when no entry has that key code. -/
def firstEntryAction (key : Int) (keyMap : List (String × Int)) : Action :=
  match keyMap.find? (fun kv => kv.2 = key) with
  | none => Action.NONE
  | some kv => (actionOfName kv.1).getD Action.NONE

/-- Key resolution over the entries that name an action: the action named by the
first entry whose key code equals `key` and whose name is one of the nine action
names; no action when there is no such entry. -/
def firstNamedAction (key : Int) (keyMap : List (String × Int)) : Action :=
  match keyMap.find? (fun kv => kv.2 = key && (actionOfName kv.1).isSome) with
  | none => Action.NONE
  | some kv => (actionOfName kv.1).getD Action.NONE

/-- The action each default key code stands for, and no action for any other
key code. -/
def defaultAction (key : Int) : Action :=
  if key = CTRL_KEY 'q' then Action.QUIT
  else if key = CTRL_KEY 's' then Action.SAVE
  else if key = KEY_UP then Action.MOVE_UP
  else if key = KEY_DOWN then Action.MOVE_DOWN
  else if key = KEY_LEFT then Action.MOVE_LEFT
  else if key = KEY_RIGHT then Action.MOVE_RIGHT
  else if key = CTRL_LEFT then Action.MOVE_WORD_LEFT
  else if key = CTRL_RIGHT then Action.MOVE_WORD_RIGHT
  else if key = CTRL_KEY 'z' then Action.UNDO
  else Action.NONE

/-- A key map in which the unknown name `exit` and `quit` share the code of Ctrl-q. -/
def exitQuitMap : List (String × Int) := [("exit", 17), ("quit", 17)]

/-- The row `s = "a"; // c`. -/
def commentAfterStringRow : Row :=
  ['s', ' ', '=', ' ', DQUOTE, 'a', DQUOTE, ';', ' ', '/', '/', ' ', 'c']

/-- The row `x = a; // comment`. -/
def commentRow : Row :=
  ['x', ' ', '=', ' ', 'a', ';', ' ', '/', '/', ' ', 'c', 'o', 'm', 'm', 'e', 'n', 't']

/-- A 23 by 80 window on the single row quote, tab, `x`, the cursor on the `x`. -/
def tabInStringState : EditorState :=
  { rows := [[DQUOTE, TAB, 'x']], cx := 2, cy := 0, screenRows := 23, screenCols := 80 }

/-- A 23 by 80 window on the single row `//`, tab, `x`, the cursor on the `x`. -/
def tabInCommentState : EditorState :=
  { rows := [['/', '/', TAB, 'x']], cx := 3, cy := 0, screenRows := 23, screenCols := 80 }

/-- A 23 by 80 window on the single row `a`, tab, `x`, the cursor on the `x`. -/
def tabInTextState : EditorState :=
  { rows := [['a', TAB, 'x']], cx := 2, cy := 0, screenRows := 23, screenCols := 80 }

/-- The configuration file with the line `tabsize = 0` under `[options]`. -/
def zeroTabConfig : List Char :=
  "[options]".toList ++ NEWLINE :: "tabsize = 0".toList ++ [NEWLINE]

/-- The configuration file with the line `tabsize = wide` under `[options]`. -/
def wordTabConfig : List Char :=
  "[options]".toList ++ NEWLINE :: "tabsize = wide".toList ++ [NEWLINE]

/-- The configuration file with the line `tabsize = -4` under `[options]`. -/
def negativeTabConfig : List Char :=
  "[options]".toList ++ NEWLINE :: "tabsize = -4".toList ++ [NEWLINE]

/-- The classification of a completed identifier, as the specification words it:
keyword (1) iff the word is in the keyword list, otherwise type (2) iff it is in
the type list, otherwise plain (0). -/
def identifierClass (word : Row) : Nat :=
  if String.mk word ∈ keywords then 1 else if String.mk word ∈ typeNames then 2 else 0

/-- The row made of the one word `returnValue`. -/
def returnValueRow : Row := ['r', 'e', 't', 'u', 'r', 'n', 'V', 'a', 'l', 'u', 'e']

/-- The row made of the one word `return`. -/
def returnRow : Row := ['r', 'e', 't', 'u', 'r', 'n']

/-- The characters and columns of painted cells, colours left out. -/
def cellText (cells : List Cell) : List (Int × Char) :=
  cells.map (fun cell => (cell.col, cell.ch))

/-- A 23 by 10 window on the single row `abcdefghijkl` with the cursor at
`cx = 11`. -/
def wideRowState : EditorState :=
  { rows := [['a', 'b', 'c', 'd', 'e', 'f', 'g', 'h', 'i', 'j', 'k', 'l']],
    cx := 11, cy := 0, screenRows := 23, screenCols := 10 }

/-- The single row `ab` with the cursor at the origin and a full undo stack: the
snapshot of the empty buffer, the oldest, below 99 snapshots of the row `a`. -/
def fullStackWorld : World :=
  { E := { rows := [['a', 'b']], cx := 0, cy := 0, dirty := true },
    undoStack := snapshotOf {} :: List.replicate 99 (snapshotOf { rows := [['a']], cx := 1 }) }

/-- The single row `ab` with the cursor at the origin and one snapshot, of the empty
buffer, on the undo stack. -/
def oneSnapshotWorld : World :=
  { E := { rows := [['a', 'b']], cx := 0, cy := 0, dirty := true },
    undoStack := [snapshotOf {}] }

/-- The row `"a" return`. -/
def returnAfterStringRow : Row := [DQUOTE, 'a', DQUOTE, ' ', 'r', 'e', 't', 'u', 'r', 'n']

/-- The row made of the one word `print`. -/
def printRow : Row := ['p', 'r', 'i', 'n', 't']

/-- A 23 by 10 window on the rows `abcdefghijkl` and `print`, the cursor on the
first row at `cx = 11`. -/
def printBelowWideRowState : EditorState :=
  { rows := [['a', 'b', 'c', 'd', 'e', 'f', 'g', 'h', 'i', 'j', 'k', 'l'], printRow],
    cx := 11, cy := 0, screenRows := 23, screenCols := 10 }

/-! ## The cursor invariant -/

/-- The cursor invariant of the data model: `0 ≤ cy ≤ len(rows)`; on a row,
`0 ≤ cx ≤ len(rows[cy])`; at the append position `cy = len(rows)`, `cx = 0`. -/
def cursorInv (E : EditorState) : Prop :=
  0 ≤ E.cy ∧ E.cy ≤ E.rows.length ∧
  (E.cy < E.rows.length → 0 ≤ E.cx ∧ E.cx ≤ (E.rows.getD E.cy.toNat []).length) ∧
  (E.cy = E.rows.length → E.cx = 0)

instance (E : EditorState) : Decidable (cursorInv E) := by
  unfold cursorInv
  infer_instance

/-! ## Helper lemmas: undo stack and invariant preservation -/

theorem vecAt_natCast {α : Type} (v : List α) (n : Nat) : vecAt v (n : Int) = v[n]? := by
  simp [vecAt]

theorem insertChar_inv (c : Char) (w : World) (h : cursorInv w.E) :
    ∃ w1, insertChar c w = some w1 ∧ cursorInv w1.E ∧
      w1.undoStack = pushSnap w.undoStack (snapshotOf w.E) := by
  rcases w with ⟨⟨cx, cy, ro, co, sr, sc, q, d, f, rows, cfg⟩, st⟩
  obtain ⟨h0, h1, h2, h3⟩ := h
  simp only at h0 h1 h2 h3
  obtain ⟨n, rfl⟩ := Int.eq_ofNat_of_zero_le h0
  by_cases hlen : n = rows.length
  · have hcx := h3 (by omega)
    subst hcx
    subst hlen
    have e1 : ¬ ((rows.length : Int) < 0) := by omega
    simp only [insertChar, pushUndo, e1, false_or, gt_iff_lt, lt_self_iff_false, if_false, if_true,
      vecAt_natCast]
    refine ⟨_, by simp; rfl, ?_, rfl⟩
    simp [cursorInv]
  · have hn' : n < rows.length := by omega
    obtain ⟨hc0, hc1⟩ := h2 (by omega)
    simp only [Int.toNat_ofNat, List.getD_eq_getElem?_getD, List.getElem?_eq_getElem hn',
      Option.getD_some] at hc1
    have e1 : ¬ ((n : Int) < 0 ∨ (n : Int) > rows.length) := by omega
    have e2 : ¬ ((n : Int) = rows.length) := by omega
    have e3 : ¬ (cx < 0) := by omega
    have e4 : ¬ (cx > (rows[n].length : Int)) := by omega
    simp only [insertChar, pushUndo, e1, e2, e3, e4, if_false, vecAt_natCast,
      List.getElem?_eq_getElem hn', hc0, hc1, and_self, if_true, Int.toNat_ofNat]
    refine ⟨_, rfl, ?_, rfl⟩
    simp [cursorInv, hn']
    omega

theorem insertNewline_inv (w : World) (h : cursorInv w.E) :
    ∃ w1, insertNewline w = some w1 ∧ cursorInv w1.E ∧
      w1.undoStack = pushSnap w.undoStack (snapshotOf w.E) := by
  rcases w with ⟨⟨cx, cy, ro, co, sr, sc, q, d, f, rows, cfg⟩, st⟩
  obtain ⟨h0, h1, h2, h3⟩ := h
  simp only at h0 h1 h2 h3
  obtain ⟨n, rfl⟩ := Int.eq_ofNat_of_zero_le h0
  by_cases hlen : n = rows.length
  · subst hlen
    have e1 : ¬ ((rows.length : Int) < 0) := by omega
    simp only [insertNewline, pushUndo, e1, false_or, gt_iff_lt, lt_self_iff_false, if_false,
      if_true]
    refine ⟨_, rfl, ?_, rfl⟩
    simp [cursorInv]
    omega
  · have hn' : n < rows.length := by omega
    obtain ⟨hc0, hc1⟩ := h2 (by omega)
    simp only [Int.toNat_ofNat, List.getD_eq_getElem?_getD, List.getElem?_eq_getElem hn',
      Option.getD_some] at hc1
    have e1 : ¬ ((n : Int) < 0 ∨ (n : Int) > rows.length) := by omega
    have e2 : ¬ ((n : Int) = rows.length) := by omega
    simp only [insertNewline, pushUndo, e1, e2, if_false, vecAt_natCast,
      List.getElem?_eq_getElem hn', hc0, hc1, and_self, if_true, Int.toNat_ofNat]
    refine ⟨_, rfl, ?_, rfl⟩
    simp [cursorInv, hn']
    omega

theorem deleteChar_inv (w : World) (h : cursorInv w.E) :
    ∃ w1, deleteChar w = some w1 ∧ cursorInv w1.E ∧
      w1.undoStack = pushSnap w.undoStack (snapshotOf w.E) := by
  rcases w with ⟨⟨cx, cy, ro, co, sr, sc, q, d, f, rows, cfg⟩, st⟩
  have h' := h
  obtain ⟨h0, h1, h2, h3⟩ := h
  simp only at h0 h1 h2 h3
  obtain ⟨n, rfl⟩ := Int.eq_ofNat_of_zero_le h0
  by_cases hlen : n = rows.length
  · subst hlen
    have e1 : ((rows.length : Int) < 0 ∨ (rows.length : Int) ≥ rows.length) := by omega
    simp only [deleteChar, pushUndo, e1, if_true]
    exact ⟨_, rfl, h', rfl⟩
  · have hn' : n < rows.length := by omega
    obtain ⟨hc0, hc1⟩ := h2 (by omega)
    simp only [Int.toNat_ofNat, List.getD_eq_getElem?_getD, List.getElem?_eq_getElem hn',
      Option.getD_some] at hc1
    have e1 : ¬ ((n : Int) < 0 ∨ (n : Int) ≥ rows.length) := by omega
    by_cases horig : cx = 0 ∧ (n : Int) = 0
    · obtain ⟨rfl, hn0⟩ := horig
      have hn0' : n = 0 := by omega
      subst hn0'
      have e2 : ¬ ((0 : Int) < 0 ∨ (0 : Int) ≥ rows.length) := by omega
      simp only [deleteChar, pushUndo, Nat.cast_zero, e2, and_self, if_false, if_true]
      exact ⟨_, rfl, h', rfl⟩
    · by_cases hpos : cx > 0
      · have e3 : cx - 1 < (rows[n].length : Int) := by omega
        simp only [deleteChar, pushUndo, e1, horig, if_false, vecAt_natCast,
          List.getElem?_eq_getElem hn', hpos, e3, if_true, Int.toNat_ofNat]
        refine ⟨_, rfl, ?_, rfl⟩
        simp [cursorInv, hn']
        rw [List.length_eraseIdx]
        split <;> omega
      · have hcx : cx = 0 := by omega
        subst hcx
        have hn0 : n ≠ 0 := by
          intro h0'
          exact horig ⟨rfl, by omega⟩
        obtain ⟨m, rfl⟩ := Nat.exists_eq_succ_of_ne_zero hn0
        have hm : m < rows.length := by omega
        have e4 : ((m + 1 : Nat) : Int) - 1 = (m : Int) := by omega
        simp only [deleteChar, pushUndo, e1, horig, if_false, vecAt_natCast,
          List.getElem?_eq_getElem hn', hpos, e4, List.getElem?_eq_getElem hm, Int.toNat_ofNat]
        refine ⟨_, rfl, ?_, rfl⟩
        simp [cursorInv, hn', List.length_eraseIdx]
        refine ⟨by omega, fun _ => ?_, fun h => by omega⟩
        rw [List.getElem?_eraseIdx]
        simp [hm]


theorem pushSnap_of_lt (st : List UndoSnapshot) (s : UndoSnapshot) (h : st.length < UNDO_LIMIT) :
    pushSnap st s = st ++ [s] := by
  unfold pushSnap
  simp only [List.length_append, List.length_singleton]
  rw [if_neg (by omega)]

theorem undo_of_concat (v : World) (st : List UndoSnapshot) (s : UndoSnapshot)
    (h : v.undoStack = st ++ [s]) :
    (undo v).undoStack = st ∧ (undo v).E.rows = s.rows ∧ (undo v).E.cx = s.cx ∧
      (undo v).E.cy = s.cy := by
  simp [undo, h]

theorem undo_of_nil (v : World) (h : v.undoStack = []) : undo v = v := by
  simp [undo, h]

theorem pushAll_concat (st snaps : List UndoSnapshot) (s : UndoSnapshot) :
    pushAll st (snaps ++ [s]) = pushSnap (pushAll st snaps) s := by
  simp [pushAll, List.foldl_append]

theorem pushAll_nil_eq_drop (snaps : List UndoSnapshot) :
    pushAll [] snaps = snaps.drop (snaps.length - UNDO_LIMIT) := by
  induction snaps using List.reverseRecOn with
  | nil => simp [pushAll]
  | append_singleton xs x ih =>
    rw [pushAll_concat, ih]
    unfold pushSnap
    simp only [List.length_append, List.length_drop, List.length_singleton,
      show UNDO_LIMIT = 100 from rfl]
    by_cases hlt : xs.length < 100
    · have h0 : xs.length - 100 = 0 := by omega
      have h1 : xs.length + 1 - 100 = 0 := by omega
      rw [if_neg (by omega), h0, h1]
      rfl
    · rw [if_pos (by omega)]
      have h1 : xs.length + 1 - 100 = (xs.length - 100) + 1 := by omega
      have h2 : xs.length - 100 ≤ xs.length := Nat.sub_le _ _
      have h3 : 1 ≤ (List.drop (xs.length - 100) xs).length := by
        rw [List.length_drop]; omega
      rw [h1, ← List.drop_drop, List.drop_append_of_le_length h2,
        List.drop_append_of_le_length h3]

theorem undo_stack (v : World) : (undo v).undoStack = v.undoStack.dropLast := by
  unfold undo
  cases h : v.undoStack.getLast? with
  | none =>
    rw [List.getLast?_eq_none_iff] at h
    simp [h]
  | some s => rfl

theorem undo_snapshot (v : World) (s : UndoSnapshot) (h : v.undoStack.getLast? = some s) :
    snapshotOf (undo v).E = s := by
  simp [undo, h, snapshotOf]

theorem undoTimes_stack (w : World) (j : Nat) :
    (undoTimes j w).undoStack = w.undoStack.take (w.undoStack.length - j) := by
  induction j with
  | zero => simp [undoTimes]
  | succ j ih =>
    simp only [undoTimes]
    rw [undo_stack, ih, List.dropLast_eq_take, List.take_take, List.length_take]
    congr 1
    omega

theorem undoTimes_snapshot (w : World) (j : Nat) (h : j < w.undoStack.length) :
    some (snapshotOf (undoTimes (j + 1) w).E) = w.undoStack[w.undoStack.length - 1 - j]? := by
  simp only [undoTimes]
  have hl : (undoTimes j w).undoStack.getLast? = w.undoStack[w.undoStack.length - 1 - j]? := by
    rw [undoTimes_stack, List.getLast?_eq_getElem?, List.length_take, List.getElem?_take]
    have e : min (w.undoStack.length - j) w.undoStack.length - 1 = w.undoStack.length - 1 - j := by
      omega
    rw [e, if_pos (by omega)]
  rw [List.getElem?_eq_getElem (by omega)] at hl
  rw [undo_snapshot _ _ hl, List.getElem?_eq_getElem (by omega)]


theorem applyEdit_inv (op : EditOp) (w : World) (h : cursorInv w.E) :
    ∃ w1, applyEdit op w = some w1 ∧ cursorInv w1.E ∧
      w1.undoStack = pushSnap w.undoStack (snapshotOf w.E) := by
  cases op with
  | insertChar c => exact insertChar_inv c w h
  | insertNewline => exact insertNewline_inv w h
  | deleteChar => exact deleteChar_inv w h

theorem insertChar_total (c : Char) (w : World) : ∃ w1, insertChar c w = some w1 := by
  rcases w with ⟨⟨cx, cy, ro, co, sr, sc, q, d, f, rows, cfg⟩, st⟩
  by_cases hcy : cy < 0 ∨ cy > rows.length
  · simp only [insertChar, pushUndo, hcy, if_true]
    exact ⟨_, rfl⟩
  · have h0 : 0 ≤ cy := by omega
    obtain ⟨n, rfl⟩ := Int.eq_ofNat_of_zero_le h0
    have hrow : ∃ row, (if (n : Int) = rows.length then rows ++ [[]] else rows)[n]? = some row := by
      by_cases hlen : (n : Int) = rows.length
      · have : n = rows.length := by omega
        subst this
        exact ⟨[], by simp⟩
      · have hn : n < rows.length := by omega
        exact ⟨rows[n], by simp [hlen, hn]⟩
    obtain ⟨row, hrow⟩ := hrow
    have hcond :
        0 ≤ (if (if cx < 0 then 0 else cx) > (row.length : Int) then (row.length : Int)
              else (if cx < 0 then 0 else cx)) ∧
        (if (if cx < 0 then 0 else cx) > (row.length : Int) then (row.length : Int)
              else (if cx < 0 then 0 else cx)) ≤ (row.length : Int) := by
      constructor <;> split_ifs <;> omega
    simp only [insertChar, pushUndo, hcy, if_false, vecAt_natCast, hrow]
    rw [if_pos hcond]
    exact ⟨_, rfl⟩

/-! ## Helper lemmas: loops of the word motions, the column fold, load and save -/

theorem vecAt_some_bounds {α : Type} (v : List α) (i : Int) (a : α) (h : vecAt v i = some a) :
    0 ≤ i ∧ i < v.length := by
  unfold vecAt at h
  split at h
  · rename_i h0
    refine ⟨h0, ?_⟩
    by_contra hge
    rw [List.getElem?_eq_none (by omega)] at h
    exact absurd h (by simp)
  · exact absurd h (by simp)

/-- What the loop `scanRun` computes: it stops at the first position from `x` on
where `p` fails, or at the end. -/
theorem scanRun_spec (p : Char → Bool) (row : Row) (x : Nat) (hx : x ≤ row.length) :
    x ≤ scanRun p (row.drop x) x ∧ scanRun p (row.drop x) x ≤ row.length ∧
    (∀ i, x ≤ i → i < scanRun p (row.drop x) x → ∃ c, row[i]? = some c ∧ p c = true) ∧
    (scanRun p (row.drop x) x = row.length ∨
      ∃ c, row[scanRun p (row.drop x) x]? = some c ∧ p c = false) := by
  generalize h : row.length - x = n
  induction n generalizing x with
  | zero =>
    have hx' : x = row.length := by omega
    subst hx'
    simp only [List.drop_length, scanRun, le_refl, true_and, true_or, and_true]
    intro i h1 h2
    omega
  | succ n ih =>
    have hlt : x < row.length := by omega
    rw [List.drop_eq_getElem_cons hlt]
    unfold scanRun
    by_cases hp : p row[x] = true
    · rw [if_pos hp]
      obtain ⟨h1, h2, h3, h4⟩ := ih (x + 1) hlt (by omega)
      refine ⟨by omega, h2, ?_, h4⟩
      intro i hi1 hi2
      by_cases hix : i = x
      · subst hix
        exact ⟨row[i], by simp [hlt], hp⟩
      · exact h3 i (by omega) hi2
    · rw [if_neg hp]
      refine ⟨le_refl _, le_of_lt hlt, fun i h1 h2 => by omega, Or.inr ⟨row[x], by simp [hlt], ?_⟩⟩
      simpa using hp

theorem strAt_of_lt (row : Row) (i : Nat) (h : i < row.length) : strAt row i = some row[i] := by
  simp [strAt, h]

/-- What the loop `scanBack` computes from a start inside the row. -/
theorem scanBack_spec (p : Char → Bool) (row : Row) (x : Nat) (hx : x < row.length) :
    ∃ y, scanBack p row x = some y ∧ y ≤ x ∧
      (y = 0 ∨ ∃ c, row[y]? = some c ∧ p c = false) ∧
      (∀ i, y < i → i ≤ x → ∃ c, row[i]? = some c ∧ p c = true) := by
  induction x with
  | zero => exact ⟨0, rfl, le_refl _, Or.inl rfl, fun i h1 h2 => by omega⟩
  | succ x ih =>
    unfold scanBack
    rw [strAt_of_lt row (x + 1) hx]
    by_cases hp : p row[x + 1] = true
    · obtain ⟨y, h1, h2, h3, h4⟩ := ih (by omega)
      refine ⟨y, by simp [hp, h1], by omega, h3, ?_⟩
      intro i hi1 hi2
      by_cases hix : i = x + 1
      · subst hix
        exact ⟨row[x + 1], by simp [hx], hp⟩
      · exact h4 i hi1 (by omega)
    · refine ⟨x + 1, by simp [hp], le_refl _, Or.inr ⟨row[x + 1], by simp [hx], by simpa using hp⟩,
        fun i h1 h2 => by omega⟩

theorem tabAdvance_nonneg (tabSize col : Int) (c : Char) (ht : 1 ≤ tabSize) (hc : 0 ≤ col) :
    0 ≤ tabAdvance tabSize col c := by
  unfold tabAdvance
  split
  · have := Int.emod_lt_of_pos col (show 0 < tabSize by omega)
    omega
  · omega

theorem screenXLoop_eq_foldl (tabSize cx : Int) (ht : 1 ≤ tabSize) (l : List Char) (i : Nat)
    (sx : Int) (hsx : 0 ≤ sx) :
    screenXLoop tabSize cx l i sx
      = some ((l.take (cx - i).toNat).foldl (tabAdvance tabSize) sx) := by
  induction l generalizing i sx with
  | nil => simp [screenXLoop]
  | cons c cs ih =>
    unfold screenXLoop
    by_cases hi : (i : Int) < cx
    · have e : (cx - i).toNat = (cx - (i + 1 : Nat)).toNat + 1 := by omega
      rw [if_pos hi, e, List.take_succ_cons, List.foldl_cons]
      by_cases hc : c = TAB
      · rw [if_pos hc, if_neg (by omega)]
        have hmod : Int.tmod sx tabSize = sx % tabSize := by
          rw [Int.tmod_eq_emod hsx (by omega)]
        have hstep : tabAdvance tabSize sx c = sx + (tabSize - Int.tmod sx tabSize) := by
          simp [tabAdvance, hc, hmod]
        rw [← hstep]
        exact ih (i + 1) _ (tabAdvance_nonneg _ _ _ ht hsx)
      · rw [if_neg hc]
        have hstep : tabAdvance tabSize sx c = sx + 1 := by simp [tabAdvance, hc]
        rw [← hstep]
        exact ih (i + 1) _ (tabAdvance_nonneg _ _ _ ht hsx)
    · rw [if_neg hi]
      have e : (cx - i).toNat = 0 := by omega
      rw [e]
      simp

theorem getline_spec (inp : List Char) (hne : inp ≠ []) :
    ∃ line rest, getline inp = some (line, rest) ∧ NEWLINE ∉ line ∧
      ((inp = line ∧ rest = []) ∨ inp = line ++ NEWLINE :: rest) := by
  induction inp with
  | nil => exact absurd rfl hne
  | cons c cs ih =>
    unfold getline
    by_cases hc : c = NEWLINE
    · exact ⟨[], cs, by simp [hc], by simp, Or.inr (by simp [hc])⟩
    · rw [if_neg hc]
      by_cases hcs : cs = []
      · subst hcs
        refine ⟨[c], [], by simp [getline], ?_, Or.inl ⟨rfl, rfl⟩⟩
        simpa using fun h => hc h.symm
      · obtain ⟨line, rest, h1, h2, h3⟩ := ih hcs
        refine ⟨c :: line, rest, by simp [h1], ?_, ?_⟩
        · simp only [List.mem_cons, not_or]
          exact ⟨fun h => hc h.symm, h2⟩
        · rcases h3 with ⟨h3, h4⟩ | h3
          · exact Or.inl ⟨by rw [← h3], h4⟩
          · exact Or.inr (by rw [h3]; rfl)

theorem lineEndsInCR_last (line : List Char) (h : lineEndsInCR line = false) :
    line.getLast? ≠ some CR := by
  induction line with
  | nil => simp
  | cons c cs ih =>
    cases cs with
    | nil => simpa [lineEndsInCR] using h
    | cons d rest =>
      simp only [lineEndsInCR, Bool.or_eq_false_iff] at h
      rw [List.getLast?_cons_cons]
      exact ih h.2

theorem lineEndsInCR_append (line rest : List Char)
    (h : lineEndsInCR (line ++ NEWLINE :: rest) = false) :
    line.getLast? ≠ some CR ∧ lineEndsInCR rest = false := by
  induction line with
  | nil =>
    cases rest with
    | nil => simp [lineEndsInCR]
    | cons d rest =>
      simp only [List.nil_append, lineEndsInCR, Bool.or_eq_false_iff] at h
      exact ⟨by simp, h.2⟩
  | cons c cs ih =>
    cases cs with
    | nil =>
      simp only [List.singleton_append, lineEndsInCR, Bool.or_eq_false_iff] at h
      have := ih (by simpa using h.2)
      refine ⟨?_, this.2⟩
      simp only [List.getLast?_singleton, ne_eq, Option.some.injEq]
      intro hc
      simp [hc] at h
    | cons d cs' =>
      simp only [List.cons_append, lineEndsInCR, Bool.or_eq_false_iff] at h
      have := ih (by simpa using h.2)
      rw [List.getLast?_cons_cons]
      exact this

theorem stripCR_of_last_ne (line : Row) (h : line.getLast? ≠ some CR) : stripCR line = line := by
  unfold stripCR
  rw [if_neg (fun hh => h hh.2)]

theorem readRows_ne_nil (fuel : Nat) (inp : List Char) (hne : inp ≠ []) (hf : 0 < fuel) :
    readRows fuel inp ≠ [] := by
  obtain ⟨m, rfl⟩ := Nat.exists_eq_succ_of_ne_zero (Nat.pos_iff_ne_zero.mp hf)
  obtain ⟨line, rest, h1, -, -⟩ := getline_spec inp hne
  simp [readRows, h1]

theorem writeRows_cons_of_ne_nil (r : Row) (rs : List Row) (h : rs ≠ []) :
    writeRows (r :: rs) = r ++ NEWLINE :: writeRows rs := by
  cases rs with
  | nil => exact absurd rfl h
  | cons r2 rest => rfl

theorem write_read_rows (fuel : Nat) (inp : List Char) (hf : inp.length ≤ fuel)
    (hnl : endsInNewline inp = false) (hcr : lineEndsInCR inp = false) :
    writeRows (readRows fuel inp) = inp := by
  induction fuel generalizing inp with
  | zero =>
    have : inp = [] := List.length_eq_zero.mp (by omega)
    subst this
    rfl
  | succ fuel ih =>
    by_cases hne : inp = []
    · subst hne
      rfl
    · obtain ⟨line, rest, h1, h2, h3⟩ := getline_spec inp hne
      simp only [readRows, h1]
      rcases h3 with ⟨h3, h4⟩ | h3
      · subst h3 h4
        have e : readRows fuel [] = [] := by cases fuel <;> rfl
        rw [e, stripCR_of_last_ne _ (lineEndsInCR_last _ hcr)]
        rfl
      · subst h3
        obtain ⟨c1, c2⟩ := lineEndsInCR_append line rest hcr
        have hrest : rest ≠ [] := by
          intro hr
          subst hr
          simp [endsInNewline] at hnl
        have hlen : rest.length ≤ fuel := by
          simp only [List.length_append, List.length_cons] at hf
          omega
        have hfpos : 0 < fuel := by
          have := List.length_pos.mpr hrest
          omega
        have hnl' : endsInNewline rest = false := by
          obtain ⟨d, rest', rfl⟩ := List.exists_cons_of_ne_nil hrest
          simp only [endsInNewline] at hnl ⊢
          rw [List.getLast?_append_of_ne_nil _ (by simp), List.getLast?_cons_cons] at hnl
          exact hnl
        rw [stripCR_of_last_ne _ c1, writeRows_cons_of_ne_nil _ _ (readRows_ne_nil _ _ hrest hfpos),
          ih rest hlen hnl' c2]


theorem writeRows_eq_intercalate (rows : List Row) :
    writeRows rows = List.intercalate [NEWLINE] rows := by
  induction rows with
  | nil => rfl
  | cons r rs ih =>
    cases rs with
    | nil => simp [writeRows, List.intercalate]
    | cons r2 rest =>
      rw [writeRows, ih]
      simp [List.intercalate]

theorem writeRows_length (rows : List Row) :
    (writeRows rows).length = (rows.map List.length).sum + (rows.length - 1) := by
  induction rows with
  | nil => rfl
  | cons r rs ih =>
    cases rs with
    | nil => simp [writeRows]
    | cons r2 rest =>
      rw [writeRows, List.length_append, List.length_cons, ih]
      simp
      omega

/-! ## Undo round trip and the bounded undo stack -/

/-- Claim C1 (undo round trip). From a state that satisfies the cursor invariant, with
undo stack `U`, any sequence of `n` edits drawn from `insertChar c`, `insertNewline`
and `deleteChar` with `|U| + n ≤ UNDO_LIMIT` runs without a fault, and `n` calls of
`undo` afterwards give back the rows, `cx` and `cy` the state had before the first
edit and leave the undo stack equal to `U`. -/
theorem undo_round_trip (w : World) (ops : List EditOp) (hinv : cursorInv w.E)
    (hcap : w.undoStack.length + ops.length ≤ UNDO_LIMIT) :
    ∃ w1, applyEdits ops w = some w1 ∧
      (undoTimes ops.length w1).E.rows = w.E.rows ∧
      (undoTimes ops.length w1).E.cx = w.E.cx ∧
      (undoTimes ops.length w1).E.cy = w.E.cy ∧
      (undoTimes ops.length w1).undoStack = w.undoStack := by
  induction ops generalizing w with
  | nil => exact ⟨w, rfl, rfl, rfl, rfl, rfl⟩
  | cons op ops ih =>
    simp only [List.length_cons] at hcap
    obtain ⟨w1, h1, hinv1, hst1⟩ := applyEdit_inv op w hinv
    rw [pushSnap_of_lt _ _ (by omega)] at hst1
    obtain ⟨w2, h2, -, -, -, hst2⟩ :=
      ih w1 hinv1 (by rw [hst1, List.length_append, List.length_singleton]; omega)
    refine ⟨w2, by simp [applyEdits, h1, h2], ?_⟩
    simp only [List.length_cons, undoTimes]
    have := undo_of_concat (undoTimes ops.length w2) w.undoStack (snapshotOf w.E)
      (by rw [hst2, hst1])
    exact ⟨this.2.1, this.2.2.1, this.2.2.2, this.1⟩

/-- Witness of C1: three edits on the empty buffer, then three undos. -/
theorem undo_round_trip_witness :
    ∃ w1, applyEdits [EditOp.insertChar 'a', EditOp.insertNewline, EditOp.deleteChar] {} = some w1 ∧
      (undoTimes 3 w1).E.rows = [] ∧ (undoTimes 3 w1).E.cx = 0 ∧ (undoTimes 3 w1).E.cy = 0 ∧
      (undoTimes 3 w1).undoStack = [] :=
  undo_round_trip {} [EditOp.insertChar 'a', EditOp.insertNewline, EditOp.deleteChar]
    (by decide) (by decide)

theorem pushUndoEach_eq_pushAll (stack : List UndoSnapshot) (es : List EditorState) :
    pushUndoEach stack es = pushAll stack (es.map snapshotOf) := by
  induction es generalizing stack with
  | nil => rfl
  | cons E es ih =>
    simp only [pushUndoEach, pushAll, List.foldl_cons, List.map_cons] at ih ⊢
    exact ih _

theorem pushAll_undo_facts (snaps : List UndoSnapshot) (E : EditorState) :
    pushAll [] snaps = snaps.drop (snaps.length - UNDO_LIMIT) ∧
    (pushAll [] snaps).length = min snaps.length UNDO_LIMIT ∧
    (snaps.length = UNDO_LIMIT + 1 → pushAll [] snaps = snaps.tail) ∧
    (∀ j, j < min snaps.length UNDO_LIMIT →
      some (snapshotOf (undoTimes (j + 1) { E := E, undoStack := pushAll [] snaps }).E)
          = snaps[snaps.length - 1 - j]? ∧
      (undoTimes (j + 1) { E := E, undoStack := pushAll [] snaps }).undoStack
          = (snaps.drop (snaps.length - UNDO_LIMIT)).take
              (min snaps.length UNDO_LIMIT - (j + 1))) ∧
    (undoTimes (min snaps.length UNDO_LIMIT)
        { E := E, undoStack := pushAll [] snaps }).undoStack = [] ∧
    undo (undoTimes (min snaps.length UNDO_LIMIT) { E := E, undoStack := pushAll [] snaps })
      = undoTimes (min snaps.length UNDO_LIMIT) { E := E, undoStack := pushAll [] snaps } := by
  have hdrop := pushAll_nil_eq_drop snaps
  have hlen : (pushAll [] snaps).length = min snaps.length UNDO_LIMIT := by
    rw [hdrop, List.length_drop]; omega
  have hempty : (undoTimes (min snaps.length UNDO_LIMIT)
      { E := E, undoStack := pushAll [] snaps }).undoStack = [] := by
    rw [undoTimes_stack]
    show List.take ((pushAll [] snaps).length - _) (pushAll [] snaps) = _
    rw [hlen]
    simp
  refine ⟨hdrop, hlen, ?_, ?_, hempty, undo_of_nil _ hempty⟩
  · intro hk
    rw [hdrop, hk]
    simp
  · intro j hj
    constructor
    · rw [undoTimes_snapshot _ j (by simpa [hlen] using hj)]
      simp only [hlen]
      rw [hdrop, List.getElem?_drop]
      congr 1
      omega
    · rw [undoTimes_stack]
      show List.take ((pushAll [] snaps).length - (j + 1)) (pushAll [] snaps) = _
      rw [hlen, hdrop]

/-- Claim C6 (undo-stack bound and eviction). After `pushUndo` ran `k` times from the
empty stack, in the editor states `es`, the stack is the list of the last
`min k 100` snapshots in push order, so its size is at most `UNDO_LIMIT`; for
`k = 101` the first-pushed snapshot is gone; the `(j+1)`-th `undo` installs the
`(j+1)`-th newest snapshot, and after `min k 100` undos the stack is empty and a
further `undo` changes nothing. -/
theorem undo_stack_bound (es : List EditorState) (E : EditorState) :
    pushUndoEach [] es = (es.map snapshotOf).drop (es.length - UNDO_LIMIT) ∧
    (pushUndoEach [] es).length = min es.length UNDO_LIMIT ∧
    (es.length = UNDO_LIMIT + 1 → pushUndoEach [] es = (es.map snapshotOf).tail) ∧
    (∀ j, j < min es.length UNDO_LIMIT →
      some (snapshotOf (undoTimes (j + 1) { E := E, undoStack := pushUndoEach [] es }).E)
          = (es.map snapshotOf)[es.length - 1 - j]? ∧
      (undoTimes (j + 1) { E := E, undoStack := pushUndoEach [] es }).undoStack
          = ((es.map snapshotOf).drop (es.length - UNDO_LIMIT)).take
              (min es.length UNDO_LIMIT - (j + 1))) ∧
    (undoTimes (min es.length UNDO_LIMIT)
        { E := E, undoStack := pushUndoEach [] es }).undoStack = [] ∧
    undo (undoTimes (min es.length UNDO_LIMIT) { E := E, undoStack := pushUndoEach [] es })
      = undoTimes (min es.length UNDO_LIMIT) { E := E, undoStack := pushUndoEach [] es } := by
  have h := pushAll_undo_facts (es.map snapshotOf) E
  rw [← pushUndoEach_eq_pushAll, List.length_map] at h
  exact h

set_option maxRecDepth 100000 in
/-- Witness of C6: 101 numbered states; the first snapshot is evicted and the first
`undo` installs the last one. -/
theorem undo_stack_bound_witness :
    pushUndoEach [] numberedStates = (numberedStates.map snapshotOf).tail ∧
    some (snapshotOf (undoTimes 1 { E := {}, undoStack := pushUndoEach [] numberedStates }).E)
      = (numberedStates.map snapshotOf)[numberedStates.length - 1 - 0]? :=
  ⟨(undo_stack_bound numberedStates {}).2.2.1 (by decide),
   ((undo_stack_bound numberedStates {}).2.2.2.1 0 (by decide)).1⟩

/-! ## Cursor invariant, clamping, dirty flag: the failing paths -/

/-- Claim C2 (cursor invariant), evaluated on a key sequence. From the initial state
the keys `a`, `b`, Enter, Up, End, PageDown lead to rows `"ab"`, `""` with the cursor
at `cx = 2` on the empty row 1: PageDown changes `cy` without clamping `cx`, so the
invariant is broken in a reachable state, and the next Enter faults. -/
theorem pagedown_breaks_cursorInv :
    cursorInv (initialWorld 23 80).E ∧
    ∃ w, runKeys true [97, 98, 10, KEY_UP, KEY_END, KEY_NPAGE] (initialWorld 23 80) = some w ∧
      w.E.rows = [['a', 'b'], []] ∧ w.E.cx = 2 ∧ w.E.cy = 1 ∧ ¬ cursorInv w.E ∧
      runKeys true [10] w = none := by
  refine ⟨by decide, _, rfl, ?_⟩
  decide

/-- Claim C3 (defensive clamping), evaluated. `insertChar` never faults, whatever the
cursor; but with the cursor at `cx = 2` on an empty row, `insertNewline` faults
(`row.substr(2)` on an empty string) and so does `deleteChar`
(`row.erase(row.begin() + 1)` on an empty string): neither clamps `cx`. -/
theorem insertNewline_deleteChar_unclamped :
    (∀ (c : Char) (w : World), ∃ w1, insertChar c w = some w1) ∧
    insertNewline shortRowState = none ∧ deleteChar shortRowState = none := by
  refine ⟨insertChar_total, ?_, ?_⟩ <;> decide

/-- Claim C5 (dirty flag), evaluated. On the empty clean buffer `insertNewline` takes
the end-of-buffer branch: it appends a row, so the rows change, and returns before
`dirty` is set: the flag is still false. -/
theorem insertNewline_at_end_not_dirty :
    ∃ w1, insertNewline {} = some w1 ∧ w1.E.rows = [[]] ∧
      w1.E.rows ≠ ({} : World).E.rows ∧ w1.E.dirty = false :=
  ⟨_, rfl, by decide⟩

/-! ## Highlighter: string spans -/

set_option maxRecDepth 100000 in
/-- Claim C4 (string spans), evaluated on the row `x = "a//b";`. The `x` is plain and
the embedded `//` is not a comment, but the closing quote re-enters the string
branch instead of ending the string, so the `;` after it is painted with the
string colour 5 and not as plain text. -/
theorem string_never_closes :
    drawHighlightedLine stringRow 0 0 80 {} = some
      [⟨0, 'x', 0⟩, ⟨1, ' ', 0⟩, ⟨2, '=', 0⟩, ⟨3, ' ', 0⟩, ⟨4, DQUOTE, 5⟩, ⟨5, 'a', 5⟩,
       ⟨6, '/', 5⟩, ⟨7, '/', 5⟩, ⟨8, 'b', 5⟩, ⟨9, DQUOTE, 5⟩, ⟨10, ';', 5⟩] := by
  decide

/-! ## Load and save -/

/-- Claim C7 (load/save round trip), as amended. With a non-empty file name and an
output stream that opens: for every content that does not end in a newline and in
which no line ends in a carriage return, `openFile` followed by `saveFile` writes
the content back byte for byte; and for every row sequence `saveFile` writes the
rows joined by single newlines, `rowCount - 1` separators, none after the last
row. -/
theorem load_save_round_trip (content : List Char) (filename : String) (E : EditorState)
    (hname : filename ≠ "") (hnl : endsInNewline content = false)
    (hcr : lineEndsInCR content = false) :
    loadThenSave content filename E = some content ∧
    (∀ E1 : EditorState, E1.filename ≠ "" →
      (saveFile true E1).2 = some (List.intercalate [NEWLINE] E1.rows) ∧
      (List.intercalate [NEWLINE] E1.rows).length
        = (E1.rows.map List.length).sum + (E1.rows.length - 1)) := by
  constructor
  · simp only [loadThenSave, openFile, saveFile, hname, if_false, Bool.not_true, Bool.false_eq_true]
    rw [write_read_rows _ _ (le_refl _) hnl hcr]
  · intro E1 h1
    simp only [saveFile, h1, if_false, Bool.not_true, Bool.false_eq_true]
    rw [← writeRows_eq_intercalate, writeRows_length]
    exact ⟨rfl, rfl⟩

/-- Witness of C7: a content with an inner blank line and no final newline. -/
theorem load_save_round_trip_witness :
    loadThenSave ['a', NEWLINE, NEWLINE, 'b'] "f" {} = some ['a', NEWLINE, NEWLINE, 'b'] :=
  (load_save_round_trip ['a', NEWLINE, NEWLINE, 'b'] "f" {} (by decide) (by decide) (by decide)).1

/-- Counterexample to C7 as stated: the content `a`, CR, newline, `b` has no trailing
blank line (it does not even end in a newline), yet `openFile` strips the carriage
return and `saveFile` writes `a`, newline, `b`. Besides, a final newline is not
written back: the content `a`, newline comes back as `a`. -/
theorem crlf_not_preserved :
    endsInNewline crlfContent = false ∧
    loadThenSave crlfContent "f" {} = some ['a', NEWLINE, 'b'] ∧
    loadThenSave crlfContent "f" {} ≠ some crlfContent ∧
    loadThenSave ['a', NEWLINE] "f" {} = some ['a'] := by
  decide

/-! ## Word motion -/

/-- Claim C8 (move-word-left), as amended. On a row (`cy < len(rows)`), for
`0 < cx ≤ len(row)` with a non-whitespace character somewhere in `row[0..cx)`,
`moveWordLeft` skips the whitespace `row(x1..cx)` before the cursor and the word
`row[x..x1]` before it and lands on `x < cx`, the first character of that word:
`row[x]` is not whitespace and `x = 0` or `row[x-1]` is whitespace; `cy` is kept.
On `foo  bar` with `cx = 5` it returns to `cx = 0`. At `cx = 0` with
`0 < cy < len(rows)` it moves to the end of the previous row. -/
theorem moveWordLeft_spec (E : EditorState) (row : Row)
    (hrow : vecAt E.rows E.cy = some row) :
    (0 < E.cx → E.cx ≤ row.length →
      (∃ i : Nat, (i : Int) < E.cx ∧ ∃ c, row[i]? = some c ∧ isspace c = false) →
      ∃ x x1 : Nat, moveWordLeft E = some { E with cx := x } ∧ x ≤ x1 ∧ (x1 : Int) < E.cx ∧
        (∀ i : Nat, x ≤ i → i ≤ x1 → ∃ c, row[i]? = some c ∧ isspace c = false) ∧
        (∀ i : Nat, x1 < i → (i : Int) < E.cx → ∃ c, row[i]? = some c ∧ isspace c = true) ∧
        atWordStart row x = true) ∧
    (E.cx = 0 → 0 < E.cy → ∃ prev, vecAt E.rows (E.cy - 1) = some prev ∧
      moveWordLeft E = some { E with cy := E.cy - 1, cx := prev.length }) ∧
    moveWordLeft { rows := [fooBarRow], cx := 5 } = some { rows := [fooBarRow], cx := 0 } := by
  obtain ⟨hcy0, hcy⟩ := vecAt_some_bounds _ _ _ hrow
  have hge : ¬ (E.cy ≥ E.rows.length) := by omega
  refine ⟨?_, ?_, by decide⟩
  · intro h0 hle ⟨i, hi, ci, hci1, hci2⟩
    obtain ⟨n, hn⟩ : ∃ n : Nat, E.cx = (n : Int) + 1 := ⟨(E.cx - 1).toNat, by omega⟩
    have hnl : n < row.length := by omega
    obtain ⟨x1, a1, a2, a3, a4⟩ := scanBack_spec isspace row n hnl
    obtain ⟨x2, b1, b2, b3, b4⟩ := scanBack_spec (fun c => !isspace c) row x1 (by omega)
    have hx1 : ∃ c, row[x1]? = some c ∧ isspace c = false := by
      rcases a3 with a3 | a3
      · by_cases hi0 : i = 0
        · subst hi0; subst a3; exact ⟨ci, hci1, hci2⟩
        · obtain ⟨c, hc1, hc2⟩ := a4 i (by omega) (by omega)
          rw [hci1] at hc1; cases hc1
          simp [hci2] at hc2
      · exact a3
    have hword : ∀ i : Nat, x2 < i → i ≤ x1 → ∃ c, row[i]? = some c ∧ isspace c = false := by
      intro i hi1 hi2
      obtain ⟨c, hc1, hc2⟩ := b4 i hi1 hi2
      exact ⟨c, hc1, by simpa using hc2⟩
    have hblank : ∀ i : Nat, x1 < i → (i : Int) < E.cx →
        ∃ c, row[i]? = some c ∧ isspace c = true :=
      fun i hi1 hi2 => a4 i hi1 (by omega)
    obtain ⟨c1, hc1, hc1'⟩ := hx1
    have hx2l : x2 < row.length := by omega
    have hmw : moveWordLeft E = some { E with cx :=
        (if isspace row[x2] = true ∧ (x2 : Int) < (row.length : Int) - 1 then (x2 : Int) + 1
          else x2) } := by
      unfold moveWordLeft
      rw [if_neg hge, hrow]
      simp only []
      rw [if_neg (by omega), if_neg (by omega)]
      have e : (E.cx - 1).toNat = n := by omega
      rw [e, a1]
      simp only []
      rw [b1]
      simp only []
      rw [strAt_of_lt row x2 hx2l]
    by_cases hsp : isspace row[x2] = true
    · have hlt : x2 < x1 := by
        by_contra hnot
        have e : x2 = x1 := by omega
        subst e
        rw [List.getElem?_eq_getElem hx2l] at hc1
        cases hc1
        simp [hsp] at hc1'
      refine ⟨x2 + 1, x1, ?_, by omega, by omega, fun i hi1 hi2 => hword i (by omega) hi2,
        hblank, ?_⟩
      · rw [hmw, if_pos ⟨hsp, by omega⟩]
        simp
      · obtain ⟨d, hd1, hd2⟩ := b4 (x2 + 1) (by omega) (by omega)
        simp [atWordStart, hd1, List.getElem?_eq_getElem hx2l, hsp]
        simpa using hd2
    · have hx20 : x2 = 0 := by
        rcases b3 with b3 | ⟨c, hc, hc'⟩
        · exact b3
        · rw [List.getElem?_eq_getElem hx2l] at hc
          cases hc
          simp at hc'
          exact absurd hc' hsp
      refine ⟨x2, x1, ?_, b2, by omega, ?_, hblank, ?_⟩
      · rw [hmw, if_neg (fun h => hsp h.1)]
      · intro i hi1 hi2
        by_cases hi0 : i = x2
        · subst hi0
          exact ⟨row[i], List.getElem?_eq_getElem hx2l, by simpa using hsp⟩
        · exact hword i (by omega) hi2
      · subst hx20
        simp [atWordStart, List.getElem?_eq_getElem hx2l]
        simpa using hsp
  · intro h0 hpos
    have hprev : ∃ prev, vecAt E.rows (E.cy - 1) = some prev := by
      obtain ⟨m, hm⟩ : ∃ m : Nat, E.cy - 1 = (m : Int) := ⟨(E.cy - 1).toNat, by omega⟩
      have hml : m < E.rows.length := by omega
      exact ⟨E.rows[m], by rw [hm]; simp [vecAt, hml]⟩
    obtain ⟨prev, hprev⟩ := hprev
    refine ⟨prev, hprev, ?_⟩
    unfold moveWordLeft
    rw [if_neg hge, hrow]
    simp only []
    rw [if_pos h0, if_pos hpos, hprev]

/-- Witness of C8: the row `foo  bar` with the cursor at `cx = 5`. -/
theorem moveWordLeft_spec_witness :
    ∃ x x1 : Nat, moveWordLeft { rows := [fooBarRow], cx := 5 }
        = some { rows := [fooBarRow], cx := x } ∧ x ≤ x1 ∧ (x1 : Int) < 5 ∧
      (∀ i : Nat, x ≤ i → i ≤ x1 → ∃ c, fooBarRow[i]? = some c ∧ isspace c = false) ∧
      (∀ i : Nat, x1 < i → (i : Int) < 5 → ∃ c, fooBarRow[i]? = some c ∧ isspace c = true) ∧
      atWordStart fooBarRow x = true :=
  (moveWordLeft_spec { rows := [fooBarRow], cx := 5 } fooBarRow (by decide)).1
    (by decide) (by decide) ⟨0, by decide, 'f', by decide, by decide⟩

/-- Counterexample to C8 as stated. On the row of two blanks and `a` with `cx = 2`
no word lies before the cursor and `moveWordLeft` lands on `cx = 1`, a blank; and
at the append position `cy = len(rows)` with `cx = 0`, `cy > 0` the cursor does
not move to the previous row. -/
theorem moveWordLeft_without_word :
    moveWordLeft { rows := [blankLedRow], cx := 2 } = some { rows := [blankLedRow], cx := 1 } ∧
    atWordStart blankLedRow 1 = false ∧
    cursorInv { rows := [fooBarRow], cx := 0, cy := 1 } ∧
    moveWordLeft { rows := [fooBarRow], cx := 0, cy := 1 }
      = some { rows := [fooBarRow], cx := 0, cy := 1 } := by
  decide

/-- Claim C9 (move-word-right). On a row, for `0 ≤ cx < len(row)`, `moveWordRight`
skips the run of non-whitespace `row[cx..x1)` and then the run of whitespace
`row[x1..x)`: the new offset `x` has `cx < x ≤ len(row)`, and `x = len(row)` or
`row[x]` is the first character of a word; `cy` is kept. On `foo  bar` with
`cx = 0` it lands on `cx = 5`. For `cx ≥ len(row)` it moves to column 0 of the next
row when there is one and else leaves the cursor where it is. -/
theorem moveWordRight_spec (E : EditorState) (row : Row)
    (hrow : vecAt E.rows E.cy = some row) (hcx0 : 0 ≤ E.cx) :
    (E.cx < row.length →
      ∃ x1 x : Nat, moveWordRight E = some { E with cx := x } ∧
        E.cx ≤ x1 ∧ x1 ≤ x ∧ E.cx < x ∧ x ≤ row.length ∧
        (∀ i : Nat, E.cx ≤ i → i < x1 → ∃ c, row[i]? = some c ∧ isspace c = false) ∧
        (∀ i : Nat, x1 ≤ i → i < x → ∃ c, row[i]? = some c ∧ isspace c = true) ∧
        (x = row.length ∨
          ∃ c d, row[x]? = some c ∧ isspace c = false ∧ row[x - 1]? = some d ∧ isspace d = true)) ∧
    (E.cx ≥ row.length → E.cy + 1 < E.rows.length →
      moveWordRight E = some { E with cy := E.cy + 1, cx := 0 }) ∧
    (E.cx ≥ row.length → ¬ (E.cy + 1 < E.rows.length) → moveWordRight E = some E) ∧
    moveWordRight { rows := [fooBarRow], cx := 0 } = some { rows := [fooBarRow], cx := 5 } := by
  obtain ⟨hcy0, hcy⟩ := vecAt_some_bounds _ _ _ hrow
  have hge : ¬ (E.cy ≥ E.rows.length) := by omega
  refine ⟨?_, ?_, ?_, by decide⟩
  · intro hlt
    obtain ⟨n, hn⟩ := Int.eq_ofNat_of_zero_le hcx0
    have hnlt : n < row.length := by omega
    obtain ⟨a1, a2, a3, a4⟩ := scanRun_spec (fun c => !isspace c) row n (le_of_lt hnlt)
    obtain ⟨b1, b2, b3, b4⟩ := scanRun_spec isspace row _ a2
    refine ⟨scanRun (fun c => !isspace c) (row.drop n) n,
      scanRun isspace (row.drop (scanRun (fun c => !isspace c) (row.drop n) n))
        (scanRun (fun c => !isspace c) (row.drop n) n), ?_, ?_, b1, ?_, b2, ?_, ?_, ?_⟩
    · unfold moveWordRight
      rw [if_neg hge, hrow]
      simp only []
      rw [if_neg (by omega), if_neg (by omega), hn]
      rfl
    · rw [hn]; exact_mod_cast a1
    · rw [hn]
      have hgt : n < scanRun isspace (row.drop (scanRun (fun c => !isspace c) (row.drop n) n))
          (scanRun (fun c => !isspace c) (row.drop n) n) := by
        by_contra hle
        have e1 : scanRun (fun c => !isspace c) (row.drop n) n = n := by omega
        rw [e1] at a4 b1 b4 hle
        have e2 : scanRun isspace (row.drop n) n = n := by omega
        rw [e2] at b4
        rcases a4 with a4 | ⟨c, hc1, hc2⟩
        · omega
        · rcases b4 with b4 | ⟨d, hd1, hd2⟩
          · omega
          · rw [hc1] at hd1
            cases hd1
            simp [hd2] at hc2
      exact_mod_cast hgt
    · intro i hi1 hi2
      obtain ⟨c, hc1, hc2⟩ := a3 i (by omega) hi2
      exact ⟨c, hc1, by simpa using hc2⟩
    · intro i hi1 hi2
      exact b3 i hi1 hi2
    · rcases b4 with b4 | ⟨c, hc1, hc2⟩
      · exact Or.inl b4
      · right
        by_cases hxx : scanRun (fun c => !isspace c) (row.drop n) n <
            scanRun isspace (row.drop (scanRun (fun c => !isspace c) (row.drop n) n))
              (scanRun (fun c => !isspace c) (row.drop n) n)
        · obtain ⟨d, hd1, hd2⟩ := b3 (scanRun isspace
              (row.drop (scanRun (fun c => !isspace c) (row.drop n) n))
              (scanRun (fun c => !isspace c) (row.drop n) n) - 1) (by omega) (by omega)
          exact ⟨c, d, hc1, hc2, hd1, hd2⟩
        · exfalso
          have e1 : scanRun isspace (row.drop (scanRun (fun c => !isspace c) (row.drop n) n))
              (scanRun (fun c => !isspace c) (row.drop n) n)
              = scanRun (fun c => !isspace c) (row.drop n) n := by omega
          rw [e1] at hc1
          rcases a4 with a4 | ⟨d, hd1, hd2⟩
          · rw [a4] at hc1
            simp at hc1
          · rw [hd1] at hc1
            cases hc1
            simp [hc2] at hd2
  · intro h1 h2
    unfold moveWordRight
    rw [if_neg hge, hrow]
    simp only []
    rw [if_pos h1, if_pos h2]
  · intro h1 h2
    unfold moveWordRight
    rw [if_neg hge, hrow]
    simp only []
    rw [if_pos h1, if_neg h2]

/-- Witness of C9: the row `foo  bar` with the cursor at `cx = 0`. -/
theorem moveWordRight_spec_witness :
    ∃ x1 x : Nat, moveWordRight { rows := [fooBarRow], cx := 0 }
        = some { rows := [fooBarRow], cx := x } ∧
      (0 : Int) ≤ x1 ∧ x1 ≤ x ∧ (0 : Int) < x ∧ x ≤ fooBarRow.length ∧
      (∀ i : Nat, (0 : Int) ≤ i → i < x1 → ∃ c, fooBarRow[i]? = some c ∧ isspace c = false) ∧
      (∀ i : Nat, x1 ≤ i → i < x → ∃ c, fooBarRow[i]? = some c ∧ isspace c = true) ∧
      (x = fooBarRow.length ∨
        ∃ c d, fooBarRow[x]? = some c ∧ isspace c = false ∧
          fooBarRow[x - 1]? = some d ∧ isspace d = true) :=
  (moveWordRight_spec { rows := [fooBarRow], cx := 0 } fooBarRow (by decide) (by decide)).1
    (by decide)

/-! ## Tab expansion in the cursor mapping -/

/-- Claim C10 (tab expansion). For `tabSize ≥ 1` and the cursor on a row,
`computeScreenX` is the fold over `row[0..cx)` that advances the column by 1 for an
ordinary character and by `tabSize - (col mod tabSize)` for a tab; the column after
a tab is the smallest multiple of `tabSize` strictly greater than the column before
it. With `tabSize = 4` a tab at column 0 leads to column 4 and a tab at column 5 to
column 8. -/
theorem computeScreenX_fold (E : EditorState) (row : Row) (ht : 1 ≤ E.config.tabSize)
    (hrow : vecAt E.rows E.cy = some row) :
    computeScreenX E = some (screenXSpec E.config.tabSize row E.cx.toNat) ∧
    (∀ col : Int, 0 ≤ col →
      E.config.tabSize ∣ tabAdvance E.config.tabSize col TAB ∧
      col < tabAdvance E.config.tabSize col TAB ∧
      ∀ m : Int, E.config.tabSize ∣ m → col < m → tabAdvance E.config.tabSize col TAB ≤ m) ∧
    tabAdvance 4 0 TAB = 4 ∧ tabAdvance 4 5 TAB = 8 ∧
    computeScreenX { rows := [[TAB]], cx := 1 } = some 4 ∧
    computeScreenX { rows := [['a', 'b', 'c', 'd', 'e', TAB]], cx := 5 } = some 5 ∧
    computeScreenX { rows := [['a', 'b', 'c', 'd', 'e', TAB]], cx := 6 } = some 8 := by
  refine ⟨?_, ?_, by decide, by decide, by decide, by decide, by decide⟩
  · have hlt : ¬ (E.cy ≥ E.rows.length) := by
      intro hge
      unfold vecAt at hrow
      split at hrow
      · rw [List.getElem?_eq_none (by omega)] at hrow
        exact absurd hrow (by simp)
      · exact absurd hrow (by simp)
    unfold computeScreenX
    rw [if_neg hlt, hrow]
    simp only []
    rw [screenXLoop_eq_foldl _ _ ht _ _ _ (le_refl 0)]
    simp [screenXSpec]
  · intro col hcol
    have hpos : 0 < E.config.tabSize := by omega
    have h1 := Int.emod_lt_of_pos col hpos
    have h2 := Int.emod_nonneg col (show E.config.tabSize ≠ 0 by omega)
    have hval : tabAdvance E.config.tabSize col TAB
        = E.config.tabSize * (col / E.config.tabSize + 1) := by
      simp only [tabAdvance, if_true]
      have := Int.emod_add_ediv col E.config.tabSize
      rw [mul_add, mul_one]
      omega
    refine ⟨⟨_, hval⟩, ?_, ?_⟩
    · simp only [tabAdvance, if_true]; omega
    · rintro m ⟨k, rfl⟩ hlt
      rw [hval]
      have hk : col / E.config.tabSize < k := by
        by_contra hle
        have hle' : k ≤ col / E.config.tabSize := by omega
        have := Int.mul_le_mul_of_nonneg_left hle' (le_of_lt hpos)
        have := Int.emod_add_ediv col E.config.tabSize
        omega
      exact Int.mul_le_mul_of_nonneg_left (by omega) (le_of_lt hpos)

/-- Witness of C10: the row tab, `a`, `b`, tab, `c` with `tabSize = 4` and `cx = 4`. -/
theorem computeScreenX_fold_witness :
    computeScreenX { rows := [[TAB, 'a', 'b', TAB, 'c']], cx := 4 }
      = some (screenXSpec 4 [TAB, 'a', 'b', TAB, 'c'] 4) :=
  (computeScreenX_fold { rows := [[TAB, 'a', 'b', TAB, 'c']], cx := 4 } [TAB, 'a', 'b', TAB, 'c']
    (by decide) (by decide)).1

/-! ## Viewport scrolling -/

theorem editorScroll_frame (E : EditorState) :
    editorScroll E = { E with rowOffset := (editorScroll E).rowOffset,
                              colOffset := (editorScroll E).colOffset } := by
  rcases E with ⟨cx, cy, ro, co, sr, sc, q, d, f, rows, cfg⟩
  simp only [editorScroll]
  split_ifs <;> rfl

theorem editorScroll_rowOffset (E : EditorState) :
    (editorScroll E).rowOffset =
      (if E.cy ≥ (if E.cy < E.rowOffset then E.cy else E.rowOffset) + E.screenRows then
        E.cy - E.screenRows + 1
       else (if E.cy < E.rowOffset then E.cy else E.rowOffset)) := by
  rcases E with ⟨cx, cy, ro, co, sr, sc, q, d, f, rows, cfg⟩
  simp only [editorScroll]
  split_ifs <;> rfl

theorem editorScroll_colOffset (E : EditorState) :
    (editorScroll E).colOffset =
      (if E.cx ≥ (if E.cx < E.colOffset then E.cx else E.colOffset) + E.screenCols then
        E.cx - E.screenCols + 1
       else (if E.cx < E.colOffset then E.cx else E.colOffset)) := by
  rcases E with ⟨cx, cy, ro, co, sr, sc, q, d, f, rows, cfg⟩
  simp only [editorScroll]
  split_ifs <;> rfl

theorem editorScroll_fields (E : EditorState) :
    (editorScroll E).cx = E.cx ∧ (editorScroll E).cy = E.cy ∧
    (editorScroll E).screenRows = E.screenRows ∧ (editorScroll E).screenCols = E.screenCols := by
  rw [editorScroll_frame]
  exact ⟨rfl, rfl, rfl, rfl⟩

/-- Claim C11 (scroll idempotence). For every editor state, `editorScroll` applied
twice gives the same state, hence the same `rowOffset` and `colOffset`, as applied
once; and `editorScroll` changes no field other than `rowOffset` and `colOffset`. -/
theorem editorScroll_idempotent (E : EditorState) :
    editorScroll (editorScroll E) = editorScroll E ∧
    editorScroll E = { E with rowOffset := (editorScroll E).rowOffset,
                              colOffset := (editorScroll E).colOffset } := by
  refine ⟨?_, editorScroll_frame E⟩
  obtain ⟨h1, h2, h3, h4⟩ := editorScroll_fields E
  have hr := editorScroll_rowOffset (editorScroll E)
  have hc := editorScroll_colOffset (editorScroll E)
  rw [h1, h2, h3, h4] at *
  have hr0 := editorScroll_rowOffset E
  have hc0 := editorScroll_colOffset E
  have hr' : (editorScroll (editorScroll E)).rowOffset = (editorScroll E).rowOffset := by
    rw [hr]
    split_ifs at hr0 ⊢ <;> omega
  have hc' : (editorScroll (editorScroll E)).colOffset = (editorScroll E).colOffset := by
    rw [hc]
    split_ifs at hc0 ⊢ <;> omega
  rw [editorScroll_frame (editorScroll E), hr', hc']

/-- Claim C12 (viewport containment). With `screenRows ≥ 1` and `screenCols ≥ 1`, after
`editorScroll` the cursor lies in the window: `rowOffset ≤ cy < rowOffset + screenRows`
and `colOffset ≤ cx < colOffset + screenCols`; an offset whose window already held
the cursor is unchanged; otherwise the offset is snapped so that the cursor is the
first (`offset = cursor`) or the last (`offset + size - 1 = cursor`) visible row or
column. -/
theorem editorScroll_contains_cursor (E : EditorState) (hr : 1 ≤ E.screenRows)
    (hc : 1 ≤ E.screenCols) :
    ((editorScroll E).rowOffset ≤ E.cy ∧ E.cy < (editorScroll E).rowOffset + E.screenRows) ∧
    ((editorScroll E).colOffset ≤ E.cx ∧ E.cx < (editorScroll E).colOffset + E.screenCols) ∧
    (E.rowOffset ≤ E.cy → E.cy < E.rowOffset + E.screenRows →
      (editorScroll E).rowOffset = E.rowOffset) ∧
    (E.colOffset ≤ E.cx → E.cx < E.colOffset + E.screenCols →
      (editorScroll E).colOffset = E.colOffset) ∧
    (E.cy < E.rowOffset → (editorScroll E).rowOffset = E.cy) ∧
    (E.rowOffset + E.screenRows ≤ E.cy →
      (editorScroll E).rowOffset + E.screenRows - 1 = E.cy) ∧
    (E.cx < E.colOffset → (editorScroll E).colOffset = E.cx) ∧
    (E.colOffset + E.screenCols ≤ E.cx →
      (editorScroll E).colOffset + E.screenCols - 1 = E.cx) := by
  rw [editorScroll_rowOffset, editorScroll_colOffset]
  refine ⟨?_, ?_, ?_, ?_, ?_, ?_, ?_, ?_⟩
  all_goals split_ifs <;> omega

/-- Witness of C12: the cursor at row 50, column 100 of a 23 by 80 window at the
origin. -/
theorem editorScroll_contains_cursor_witness :
    ((editorScroll scrolledOutState).rowOffset ≤ scrolledOutState.cy ∧
      scrolledOutState.cy < (editorScroll scrolledOutState).rowOffset + scrolledOutState.screenRows) ∧
    ((editorScroll scrolledOutState).colOffset ≤ scrolledOutState.cx ∧
      scrolledOutState.cx < (editorScroll scrolledOutState).colOffset + scrolledOutState.screenCols) :=
  ⟨(editorScroll_contains_cursor scrolledOutState (by decide) (by decide)).1,
   (editorScroll_contains_cursor scrolledOutState (by decide) (by decide)).2.1⟩

/-! ## Backspace and newline on the row store -/

theorem pushSnap_of_full (st : List UndoSnapshot) (s : UndoSnapshot)
    (h : st.length = UNDO_LIMIT) : pushSnap st s = st.tail ++ [s] := by
  unfold pushSnap
  simp only [List.length_append, List.length_singleton, h]
  rw [if_pos (by omega)]
  cases st with
  | nil => simp [UNDO_LIMIT] at h
  | cons a rest => rfl

theorem pushAll_eq_drop (st snaps : List UndoSnapshot) (hst : st.length ≤ UNDO_LIMIT) :
    pushAll st snaps = (st ++ snaps).drop (st.length + snaps.length - UNDO_LIMIT) := by
  induction snaps using List.reverseRecOn with
  | nil =>
    have : st.length + ([] : List UndoSnapshot).length - UNDO_LIMIT = 0 := by
      simp only [List.length_nil]; omega
    rw [this]
    simp [pushAll]
  | append_singleton xs x ih =>
    rw [pushAll_concat, ih]
    unfold pushSnap
    simp only [List.length_append, List.length_drop, List.length_singleton,
      show UNDO_LIMIT = 100 from rfl] at hst ⊢
    by_cases hlt : st.length + xs.length < 100
    · have h0 : st.length + xs.length - 100 = 0 := by omega
      have h1 : st.length + (xs.length + 1) - 100 = 0 := by omega
      rw [if_neg (by omega), h0, h1]
      simp
    · rw [if_pos (by omega)]
      have h1 : st.length + (xs.length + 1) - 100 = (st.length + xs.length - 100) + 1 := by omega
      have h2 : st.length + xs.length - 100 ≤ (st ++ xs).length := by
        rw [List.length_append]; omega
      have h3 : 1 ≤ (List.drop (st.length + xs.length - 100) (st ++ xs)).length := by
        rw [List.length_drop, List.length_append]; omega
      rw [h1, ← List.drop_drop, ← List.append_assoc, List.drop_append_of_le_length h2,
        List.drop_append_of_le_length h3]

theorem pushAll_replicate_full (st : List UndoSnapshot) (s : UndoSnapshot) (n : Nat)
    (hst : st.length ≤ UNDO_LIMIT) (hn : UNDO_LIMIT ≤ n) :
    pushAll st (List.replicate n s) = List.replicate UNDO_LIMIT s := by
  rw [pushAll_eq_drop _ _ hst, List.length_replicate]
  have e : st.length + n - UNDO_LIMIT = st.length + (n - UNDO_LIMIT) := by omega
  rw [e, List.drop_append, List.drop_replicate]
  congr 1
  omega

theorem deleteChar_origin_eq (w : World) (hx : w.E.cx = 0) (hy : w.E.cy = 0) :
    deleteChar w = some { w with undoStack := pushSnap w.undoStack (snapshotOf w.E) } := by
  unfold deleteChar
  simp only [pushUndo]
  by_cases h : w.E.cy < 0 ∨ w.E.cy ≥ w.E.rows.length
  · rw [if_pos h]
  · rw [if_neg h, if_pos ⟨hx, hy⟩]

theorem deleteChar_origin_repeat (n : Nat) (w : World) (hx : w.E.cx = 0) (hy : w.E.cy = 0) :
    applyEdits (List.replicate n EditOp.deleteChar) w =
      some { w with undoStack := pushAll w.undoStack (List.replicate n (snapshotOf w.E)) } := by
  induction n generalizing w with
  | zero => rfl
  | succ n ih =>
    simp only [List.replicate_succ, applyEdits, applyEdit, deleteChar_origin_eq w hx hy,
      Option.some_bind]
    rw [ih { E := w.E, undoStack := pushSnap w.undoStack (snapshotOf w.E) } hx hy]
    simp [pushAll]

/-- Claim C13 (backspace at the origin). With `cx = 0` and `cy = 0`, `deleteChar` leaves
the whole editor record (rows, `cx`, `cy`, `dirty`) as it is and pushes one
snapshot of it: appended when the stack is below `UNDO_LIMIT`, replacing the oldest
snapshot when the stack holds `UNDO_LIMIT`; after `n ≥ UNDO_LIMIT` such backspaces
the stack holds nothing but copies of the current state, every earlier snapshot
is evicted. -/
theorem deleteChar_at_origin (w : World) (hx : w.E.cx = 0) (hy : w.E.cy = 0) :
    deleteChar w = some { w with undoStack := pushSnap w.undoStack (snapshotOf w.E) } ∧
    (w.undoStack.length < UNDO_LIMIT →
      pushSnap w.undoStack (snapshotOf w.E) = w.undoStack ++ [snapshotOf w.E]) ∧
    (w.undoStack.length = UNDO_LIMIT →
      pushSnap w.undoStack (snapshotOf w.E) = w.undoStack.tail ++ [snapshotOf w.E]) ∧
    (∀ n, w.undoStack.length ≤ UNDO_LIMIT → UNDO_LIMIT ≤ n →
      applyEdits (List.replicate n EditOp.deleteChar) w =
        some { w with undoStack := List.replicate UNDO_LIMIT (snapshotOf w.E) }) := by
  refine ⟨deleteChar_origin_eq w hx hy, pushSnap_of_lt _ _, pushSnap_of_full _ _, ?_⟩
  intro n hst hn
  rw [deleteChar_origin_repeat n w hx hy, pushAll_replicate_full _ _ _ hst hn]

/-- Witness of C13: backspace at the origin of the one-row buffer `ab`. The row count
is 1, so the call passes the test of `cy` against the row count and returns at the
test of the origin. With a full stack of 100 snapshots the push drops the oldest
one, the snapshot of the empty buffer, and 100 backspaces leave nothing but copies
of the current state; with one snapshot on the stack the push appends. -/
theorem deleteChar_at_origin_witness :
    (fullStackWorld.E.rows = [['a', 'b']] ∧ fullStackWorld.undoStack.length = UNDO_LIMIT ∧
      fullStackWorld.undoStack.head? = some (snapshotOf {})) ∧
    deleteChar fullStackWorld = some { fullStackWorld with
      undoStack := pushSnap fullStackWorld.undoStack (snapshotOf fullStackWorld.E) } ∧
    pushSnap fullStackWorld.undoStack (snapshotOf fullStackWorld.E) =
      fullStackWorld.undoStack.tail ++ [snapshotOf fullStackWorld.E] ∧
    applyEdits (List.replicate 100 EditOp.deleteChar) fullStackWorld =
      some { fullStackWorld with
        undoStack := List.replicate UNDO_LIMIT (snapshotOf fullStackWorld.E) } ∧
    pushSnap oneSnapshotWorld.undoStack (snapshotOf oneSnapshotWorld.E) =
      oneSnapshotWorld.undoStack ++ [snapshotOf oneSnapshotWorld.E] :=
  ⟨⟨rfl, by decide, rfl⟩,
   (deleteChar_at_origin fullStackWorld rfl rfl).1,
   (deleteChar_at_origin fullStackWorld rfl rfl).2.2.1 (by decide),
   (deleteChar_at_origin fullStackWorld rfl rfl).2.2.2 100 (by decide) (by decide),
   (deleteChar_at_origin oneSnapshotWorld rfl rfl).2.1 (by decide)⟩

theorem set_eq_take_cons_drop {α : Type} (l : List α) (n : Nat) (a : α) (h : n < l.length) :
    l.set n a = l.take n ++ a :: l.drop (n + 1) := by
  induction l generalizing n with
  | nil => simp at h
  | cons b l ih =>
    cases n with
    | zero => simp
    | succ n =>
      simp only [List.length_cons, Nat.add_lt_add_iff_right] at h
      simp [ih n h]

theorem eq_take_cons_drop {α : Type} (l : List α) (n : Nat) (h : n < l.length) :
    l = l.take n ++ l[n] :: l.drop (n + 1) := by
  conv_lhs => rw [← List.take_append_drop n l, List.drop_eq_getElem_cons h]

theorem merge_rows_eq (rows : List Row) (k : Nat) (hk : k + 1 < rows.length) :
    (rows.set k (rows[k] ++ rows[k + 1])).eraseIdx (k + 1)
      = rows.take k ++ (rows[k] ++ rows[k + 1]) :: rows.drop (k + 2) := by
  induction rows generalizing k with
  | nil => simp at hk
  | cons r rs ih =>
    cases k with
    | zero =>
      cases rs with
      | nil => simp at hk
      | cons r2 rest => simp
    | succ k =>
      simp only [List.length_cons, Nat.add_lt_add_iff_right] at hk
      have := ih k hk
      simpa using this

/-- Claim C14 (backspace merges rows). In a state with the cursor invariant: for
`cx = 0` and `0 < cy < len(rows)`, `deleteChar` replaces row `cy-1` by
`rows[cy-1] ++ rows[cy]`, removes row `cy` and keeps the rows before and after, so
the row count drops by one and the concatenation of all rows is kept; the cursor
goes to `(len(rows[cy-1]), cy-1)`. For `cx > 0` on a row it removes the character
at offset `cx-1` of row `cy`, keeps the other rows, and decrements `cx`. -/
theorem deleteChar_merges (w : World) (hinv : cursorInv w.E) :
    (w.E.cx = 0 → 0 < w.E.cy → w.E.cy < w.E.rows.length →
      ∃ prev row w1, vecAt w.E.rows (w.E.cy - 1) = some prev ∧ vecAt w.E.rows w.E.cy = some row ∧
        deleteChar w = some w1 ∧
        w1.E.rows = w.E.rows.take (w.E.cy - 1).toNat ++ (prev ++ row) ::
          w.E.rows.drop (w.E.cy.toNat + 1) ∧
        w1.E.rows.length + 1 = w.E.rows.length ∧
        w1.E.rows.flatten = w.E.rows.flatten ∧
        w1.E.cx = prev.length ∧ w1.E.cy = w.E.cy - 1) ∧
    (0 < w.E.cx → w.E.cy < w.E.rows.length →
      ∃ row w1, vecAt w.E.rows w.E.cy = some row ∧ deleteChar w = some w1 ∧
        w1.E.rows = w.E.rows.take w.E.cy.toNat ++
          (row.take (w.E.cx - 1).toNat ++ row.drop w.E.cx.toNat) ::
            w.E.rows.drop (w.E.cy.toNat + 1) ∧
        w1.E.cx = w.E.cx - 1 ∧ w1.E.cy = w.E.cy) := by
  rcases w with ⟨⟨cx, cy, ro, co, sr, sc, q, d, f, rows, cfg⟩, st⟩
  obtain ⟨h0, h1, h2, h3⟩ := hinv
  simp only at h0 h1 h2 h3 ⊢
  obtain ⟨n, rfl⟩ := Int.eq_ofNat_of_zero_le h0
  constructor
  · intro hcx hpos hlt
    subst hcx
    obtain ⟨k, rfl⟩ : ∃ k, n = k + 1 := ⟨n - 1, by omega⟩
    have hk1 : k + 1 < rows.length := by omega
    have hk : k < rows.length := by omega
    have e1 : ¬ (((k + 1 : Nat) : Int) < 0 ∨ ((k + 1 : Nat) : Int) ≥ rows.length) := by omega
    have e2 : ¬ (((k + 1 : Nat) : Int) = 0) := by omega
    have e3 : ¬ ((0 : Int) > 0) := by omega
    have e4 : ((k + 1 : Nat) : Int) - 1 = (k : Int) := by omega
    have hres : deleteChar
        { E := { cx := 0, cy := ((k + 1 : Nat) : Int), rowOffset := ro, colOffset := co,
                 screenRows := sr, screenCols := sc, quit := q, dirty := d, filename := f,
                 rows := rows, config := cfg },
          undoStack := st } =
        some
        { E := { cx := (rows[k].length : Int), cy := (k : Int), rowOffset := ro, colOffset := co,
                 screenRows := sr, screenCols := sc, quit := q, dirty := true, filename := f,
                 rows := (rows.set k (rows[k] ++ rows[k + 1])).eraseIdx (k + 1),
                 config := cfg },
          undoStack := pushSnap st (snapshotOf
            { cx := 0, cy := ((k + 1 : Nat) : Int), rowOffset := ro, colOffset := co,
              screenRows := sr, screenCols := sc, quit := q, dirty := d, filename := f,
              rows := rows, config := cfg }) } := by
      simp only [deleteChar, pushUndo, e1, e2, e3, e4, if_false, vecAt_natCast, and_false,
        List.getElem?_eq_getElem hk1, List.getElem?_eq_getElem hk, Int.toNat_ofNat]
    refine ⟨rows[k], rows[k + 1], _, by rw [e4, vecAt_natCast, List.getElem?_eq_getElem hk],
      by rw [vecAt_natCast, List.getElem?_eq_getElem hk1], hres,
      ?_, ?_, ?_, rfl, by simp only []; omega⟩
    · simp only [e4, Int.toNat_ofNat]
      exact merge_rows_eq rows k hk1
    · simp only []
      rw [merge_rows_eq rows k hk1]
      simp
      omega
    · simp only []
      rw [merge_rows_eq rows k hk1]
      have hj : rows.flatten
          = (rows.take k).flatten ++ (rows[k] ++ (rows[k + 1] ++ (rows.drop (k + 2)).flatten)) := by
        conv_lhs => rw [eq_take_cons_drop rows k hk]
        rw [List.flatten_append, List.flatten_cons]
        congr 2
        rw [List.drop_eq_getElem_cons hk1, List.flatten_cons]
      rw [hj, List.flatten_append, List.flatten_cons, List.append_assoc]
  · intro hpos hlt
    have hn : n < rows.length := by omega
    obtain ⟨hc0, hc1⟩ := h2 hlt
    simp only [Int.toNat_ofNat, List.getD_eq_getElem?_getD, List.getElem?_eq_getElem hn,
      Option.getD_some] at hc1
    obtain ⟨m, rfl⟩ : ∃ m : Nat, cx = ((m + 1 : Nat) : Int) := ⟨(cx - 1).toNat, by omega⟩
    have hm : m < rows[n].length := by omega
    have e1 : ¬ ((n : Int) < 0 ∨ (n : Int) ≥ rows.length) := by omega
    have e2 : ¬ (((m + 1 : Nat) : Int) = 0 ∧ (n : Int) = 0) := by omega
    have e3 : ((m + 1 : Nat) : Int) > 0 := by omega
    have e4 : ((m + 1 : Nat) : Int) - 1 = (m : Int) := by omega
    have e5 : (m : Int) < (rows[n].length : Int) := by omega
    have hres : deleteChar
        { E := { cx := ((m + 1 : Nat) : Int), cy := (n : Int), rowOffset := ro, colOffset := co,
                 screenRows := sr, screenCols := sc, quit := q, dirty := d, filename := f,
                 rows := rows, config := cfg },
          undoStack := st } =
        some
        { E := { cx := (m : Int), cy := (n : Int), rowOffset := ro, colOffset := co,
                 screenRows := sr, screenCols := sc, quit := q, dirty := true, filename := f,
                 rows := rows.set n (rows[n].eraseIdx m),
                 config := cfg },
          undoStack := pushSnap st (snapshotOf
            { cx := ((m + 1 : Nat) : Int), cy := (n : Int), rowOffset := ro, colOffset := co,
              screenRows := sr, screenCols := sc, quit := q, dirty := d, filename := f,
              rows := rows, config := cfg }) } := by
      simp only [deleteChar, pushUndo, e1, e2, e3, e4, e5, if_false, if_true, vecAt_natCast,
        List.getElem?_eq_getElem hn, Int.toNat_ofNat]
    refine ⟨rows[n], _, by rw [vecAt_natCast, List.getElem?_eq_getElem hn], hres, ?_,
      by simp only []; omega, rfl⟩
    simp only [e4, Int.toNat_ofNat]
    rw [set_eq_take_cons_drop _ _ _ hn, List.eraseIdx_eq_take_drop_succ]

/-- Witness of C14: rows `ab`, `cd` with the cursor at the start of `cd`. -/
theorem deleteChar_merges_witness :
    ∃ prev row w1, vecAt twoRowState.E.rows (twoRowState.E.cy - 1) = some prev ∧
      vecAt twoRowState.E.rows twoRowState.E.cy = some row ∧
      deleteChar twoRowState = some w1 ∧
      w1.E.rows = twoRowState.E.rows.take (twoRowState.E.cy - 1).toNat ++ (prev ++ row) ::
        twoRowState.E.rows.drop (twoRowState.E.cy.toNat + 1) ∧
      w1.E.rows.length + 1 = twoRowState.E.rows.length ∧
      w1.E.rows.flatten = twoRowState.E.rows.flatten ∧
      w1.E.cx = prev.length ∧ w1.E.cy = twoRowState.E.cy - 1 :=
  (deleteChar_merges twoRowState (by decide)).1 (by decide) (by decide) (by decide)

/-- Claim C20 (newline insertion). In a state with the cursor invariant: for
`cy < len(rows)`, `insertNewline` replaces row `cy` by `row[0..cx)`, inserts
`row[cx..)` as a new row at `cy+1` and keeps the rows before and after, so the row
count grows by one and the concatenation of all rows is kept; the cursor goes to
`(0, cy+1)`. At the end of the buffer, `cy = len(rows)`, it appends one empty row
and the cursor goes to `(0, cy+1)`. -/
theorem insertNewline_splits (w : World) (hinv : cursorInv w.E) :
    (w.E.cy < w.E.rows.length →
      ∃ row w1, vecAt w.E.rows w.E.cy = some row ∧ insertNewline w = some w1 ∧
        w1.E.rows = w.E.rows.take w.E.cy.toNat ++ row.take w.E.cx.toNat ::
          row.drop w.E.cx.toNat :: w.E.rows.drop (w.E.cy.toNat + 1) ∧
        w1.E.rows.length = w.E.rows.length + 1 ∧
        w1.E.rows.flatten = w.E.rows.flatten ∧
        w1.E.cx = 0 ∧ w1.E.cy = w.E.cy + 1) ∧
    (w.E.cy = w.E.rows.length →
      ∃ w1, insertNewline w = some w1 ∧ w1.E.rows = w.E.rows ++ [[]] ∧
        w1.E.cx = 0 ∧ w1.E.cy = w.E.cy + 1) := by
  rcases w with ⟨⟨cx, cy, ro, co, sr, sc, q, d, f, rows, cfg⟩, st⟩
  obtain ⟨h0, h1, h2, h3⟩ := hinv
  simp only at h0 h1 h2 h3 ⊢
  obtain ⟨n, rfl⟩ := Int.eq_ofNat_of_zero_le h0
  constructor
  · intro hlt
    have hn : n < rows.length := by omega
    obtain ⟨hc0, hc1⟩ := h2 hlt
    simp only [Int.toNat_ofNat, List.getD_eq_getElem?_getD, List.getElem?_eq_getElem hn,
      Option.getD_some] at hc1
    obtain ⟨m, rfl⟩ := Int.eq_ofNat_of_zero_le hc0
    have hm : m ≤ rows[n].length := by omega
    have e1 : ¬ ((n : Int) < 0 ∨ (n : Int) > rows.length) := by omega
    have e2 : ¬ ((n : Int) = rows.length) := by omega
    have hrows : (rows.set n (rows[n].take m)).take (n + 1) ++
        rows[n].drop m :: (rows.set n (rows[n].take m)).drop (n + 1)
        = rows.take n ++ rows[n].take m :: rows[n].drop m :: rows.drop (n + 1) := by
      rw [set_eq_take_cons_drop _ _ _ hn]
      have hl : (rows.take n).length = n := by simp; omega
      rw [List.take_append_eq_append_take, List.drop_append_eq_append_drop, hl]
      simp [List.take_take]
    have hres : insertNewline
        { E := { cx := (m : Int), cy := (n : Int), rowOffset := ro, colOffset := co,
                 screenRows := sr, screenCols := sc, quit := q, dirty := d, filename := f,
                 rows := rows, config := cfg },
          undoStack := st } =
        some
        { E := { cx := 0, cy := (n : Int) + 1, rowOffset := ro, colOffset := co,
                 screenRows := sr, screenCols := sc, quit := q, dirty := true, filename := f,
                 rows := (rows.set n (rows[n].take m)).take (n + 1) ++
                   rows[n].drop m :: (rows.set n (rows[n].take m)).drop (n + 1),
                 config := cfg },
          undoStack := pushSnap st (snapshotOf
            { cx := (m : Int), cy := (n : Int), rowOffset := ro, colOffset := co,
              screenRows := sr, screenCols := sc, quit := q, dirty := d, filename := f,
              rows := rows, config := cfg }) } := by
      simp only [insertNewline, pushUndo, e1, e2, if_false, vecAt_natCast,
        List.getElem?_eq_getElem hn, hc0, hc1, and_self, if_true, Int.toNat_ofNat]
    refine ⟨rows[n], _, by simp [vecAt, hn], hres, ?_, ?_, ?_, rfl, rfl⟩
    · simp only [Int.toNat_ofNat]
      exact hrows
    · simp only []
      rw [hrows]
      simp
      omega
    · simp only []
      rw [hrows]
      have hj : rows.flatten
          = (rows.take n).flatten ++ (rows[n] ++ (rows.drop (n + 1)).flatten) := by
        conv_lhs => rw [eq_take_cons_drop rows n hn]
        rw [List.flatten_append, List.flatten_cons]
      rw [hj, List.flatten_append, List.flatten_cons, List.flatten_cons, ← List.append_assoc
        (rows[n].take m), List.take_append_drop]
  · intro heq
    have hn : n = rows.length := by exact_mod_cast heq
    subst hn
    have e1 : ¬ ((rows.length : Int) < 0 ∨ (rows.length : Int) > rows.length) := by omega
    have hres : insertNewline
        { E := { cx := cx, cy := (rows.length : Int), rowOffset := ro, colOffset := co,
                 screenRows := sr, screenCols := sc, quit := q, dirty := d, filename := f,
                 rows := rows, config := cfg },
          undoStack := st } =
        some
        { E := { cx := 0, cy := (rows.length : Int) + 1, rowOffset := ro, colOffset := co,
                 screenRows := sr, screenCols := sc, quit := q, dirty := d, filename := f,
                 rows := rows ++ [[]], config := cfg },
          undoStack := pushSnap st (snapshotOf
            { cx := cx, cy := (rows.length : Int), rowOffset := ro, colOffset := co,
              screenRows := sr, screenCols := sc, quit := q, dirty := d, filename := f,
              rows := rows, config := cfg }) } := by
      simp only [insertNewline, pushUndo, e1, if_false, if_true]
    exact ⟨_, hres, rfl, rfl, rfl⟩

/-- Witness of C20: the row `abcd` split at `cx = 2`. -/
theorem insertNewline_splits_witness :
    ∃ row w1, vecAt midRowState.E.rows midRowState.E.cy = some row ∧
      insertNewline midRowState = some w1 ∧
      w1.E.rows = midRowState.E.rows.take midRowState.E.cy.toNat ++
        row.take midRowState.E.cx.toNat :: row.drop midRowState.E.cx.toNat ::
          midRowState.E.rows.drop (midRowState.E.cy.toNat + 1) ∧
      w1.E.rows.length = midRowState.E.rows.length + 1 ∧
      w1.E.rows.flatten = midRowState.E.rows.flatten ∧
      w1.E.cx = 0 ∧ w1.E.cy = midRowState.E.cy + 1 :=
  (insertNewline_splits midRowState (by decide)).1 (by decide)

/-! ## Key resolution -/

theorem mapKeyLoop_eq_firstNamed (key : Int) (km : List (String × Int)) :
    mapKeyLoop key km = firstNamedAction key km := by
  induction km with
  | nil => rfl
  | cons kv rest ih =>
    unfold mapKeyLoop firstNamedAction
    by_cases hk : kv.2 = key
    · cases hn : actionOfName kv.1 with
      | none =>
        rw [if_pos hk]
        simp only [List.find?_cons, hk, hn, Option.isSome_none, Bool.and_false, decide_True]
        rw [ih]
        rfl
      | some a =>
        rw [if_pos hk]
        simp [List.find?_cons, hk, hn]
    · rw [if_neg hk]
      simp only [List.find?_cons, hk, decide_False, Bool.false_and]
      rw [ih]
      rfl

theorem find_congr_named (key : Int) (km : List (String × Int))
    (h : ∀ kv ∈ km, kv.2 = key → (actionOfName kv.1).isSome = true) :
    km.find? (fun kv => kv.2 = key && (actionOfName kv.1).isSome)
      = km.find? (fun kv => kv.2 = key) := by
  induction km with
  | nil => rfl
  | cons kv rest ih =>
    simp only [List.find?_cons]
    by_cases hk : kv.2 = key
    · have := h kv (List.mem_cons_self _ _) hk
      simp [hk, this]
    · simp only [hk, decide_False, Bool.false_and]
      exact ih (fun kv' hm => h kv' (List.mem_cons_of_mem _ hm))

theorem mapKeyLoop_of_no_code (key : Int) (km : List (String × Int))
    (h : ∀ kv ∈ km, kv.2 ≠ key) : mapKeyLoop key km = Action.NONE := by
  induction km with
  | nil => rfl
  | cons kv rest ih =>
    unfold mapKeyLoop
    rw [if_neg (h kv (List.mem_cons_self _ _))]
    exact ih (fun kv' hm => h kv' (List.mem_cons_of_mem _ hm))

theorem mapKeyLoop_of_unique (key : Int) (a : Action) (km : List (String × Int))
    (hex : ∃ kv ∈ km, kv.2 = key)
    (hall : ∀ kv ∈ km, kv.2 = key → actionOfName kv.1 = some a) : mapKeyLoop key km = a := by
  induction km with
  | nil =>
    obtain ⟨kv, hm, -⟩ := hex
    simp at hm
  | cons kv rest ih =>
    unfold mapKeyLoop
    by_cases hk : kv.2 = key
    · rw [if_pos hk, hall kv (List.mem_cons_self _ _) hk]
    · rw [if_neg hk]
      apply ih
      · obtain ⟨kv', hm, hk'⟩ := hex
        rcases List.mem_cons.mp hm with rfl | hm'
        · exact absurd hk' hk
        · exact ⟨kv', hm', hk'⟩
      · exact fun kv' hm => hall kv' (List.mem_cons_of_mem _ hm)

theorem default_resolves (km : List (String × Int))
    (hp : km.Perm (setDefaultKeybindings {}).keyMap) (name : String) (key : Int) (a : Action)
    (hmem : (name, key) ∈ (setDefaultKeybindings {}).keyMap)
    (hall : ∀ kv ∈ (setDefaultKeybindings {}).keyMap, kv.2 = key → actionOfName kv.1 = some a) :
    mapKeyLoop key km = a :=
  mapKeyLoop_of_unique key a km ⟨(name, key), hp.mem_iff.mpr hmem, rfl⟩
    (fun kv hm => hall kv (hp.mem_iff.mp hm))

theorem mapKeyLoop_default (km : List (String × Int))
    (hp : km.Perm (setDefaultKeybindings {}).keyMap) (key : Int) :
    mapKeyLoop key km = defaultAction key := by
  unfold defaultAction
  split_ifs with h1 h2 h3 h4 h5 h6 h7 h8 h9
  · subst h1; exact default_resolves km hp "quit" _ _ (by decide) (by decide)
  · subst h2; exact default_resolves km hp "save" _ _ (by decide) (by decide)
  · subst h3; exact default_resolves km hp "move_up" _ _ (by decide) (by decide)
  · subst h4; exact default_resolves km hp "move_down" _ _ (by decide) (by decide)
  · subst h5; exact default_resolves km hp "move_left" _ _ (by decide) (by decide)
  · subst h6; exact default_resolves km hp "move_right" _ _ (by decide) (by decide)
  · subst h7; exact default_resolves km hp "move_word_left" _ _ (by decide) (by decide)
  · subst h8; exact default_resolves km hp "move_word_right" _ _ (by decide) (by decide)
  · subst h9; exact default_resolves km hp "undo" _ _ (by decide) (by decide)
  · apply mapKeyLoop_of_no_code
    intro kv hm
    have hcodes : ∀ e ∈ (setDefaultKeybindings {}).keyMap,
        e.2 = CTRL_KEY 'q' ∨ e.2 = CTRL_KEY 's' ∨ e.2 = KEY_UP ∨ e.2 = KEY_DOWN ∨
        e.2 = KEY_LEFT ∨ e.2 = KEY_RIGHT ∨ e.2 = CTRL_LEFT ∨ e.2 = CTRL_RIGHT ∨
        e.2 = CTRL_KEY 'z' := by decide
    intro hk
    rcases hcodes kv (hp.mem_iff.mp hm) with h | h | h | h | h | h | h | h | h
    · exact h1 (hk ▸ h)
    · exact h2 (hk ▸ h)
    · exact h3 (hk ▸ h)
    · exact h4 (hk ▸ h)
    · exact h5 (hk ▸ h)
    · exact h6 (hk ▸ h)
    · exact h7 (hk ▸ h)
    · exact h8 (hk ▸ h)
    · exact h9 (hk ▸ h)

/-- Claim C16 (key resolution), as amended. For every key map, in its iteration order,
and every key code, `mapKeyToAction` returns the action named by the first entry
whose key code equals the key and whose name is one of the nine action names
(entries with any other name are passed over); when every entry with that key code
names an action this is the action named by the first entry with that key code;
it is `Action.NONE` when no entry has that key code. With the nine default
bindings, in any iteration order, each default key code resolves to its own action
and every other key code to `Action.NONE`. -/
theorem mapKeyToAction_first_match (E : EditorState) (key : Int) :
    mapKeyToAction E key = firstNamedAction key E.config.keyMap ∧
    ((∀ kv ∈ E.config.keyMap, kv.2 = key → (actionOfName kv.1).isSome = true) →
      mapKeyToAction E key = firstEntryAction key E.config.keyMap) ∧
    ((∀ kv ∈ E.config.keyMap, kv.2 ≠ key) → mapKeyToAction E key = Action.NONE) ∧
    (E.config.keyMap.Perm (setDefaultKeybindings {}).keyMap →
      mapKeyToAction E key = defaultAction key) := by
  refine ⟨mapKeyLoop_eq_firstNamed key _, ?_, mapKeyLoop_of_no_code key _,
    fun hp => mapKeyLoop_default _ hp key⟩
  intro h
  unfold mapKeyToAction
  rw [mapKeyLoop_eq_firstNamed, firstNamedAction, firstEntryAction, find_congr_named key _ h]

/-- Witness of C16: the default bindings resolve Ctrl-z to undo and the letter `a`
to no action. -/
theorem mapKeyToAction_first_match_witness :
    mapKeyToAction (initialWorld 23 80).E (CTRL_KEY 'z') = Action.UNDO ∧
    mapKeyToAction (initialWorld 23 80).E 97 = Action.NONE :=
  ⟨(mapKeyToAction_first_match (initialWorld 23 80).E (CTRL_KEY 'z')).2.2.2 (List.Perm.refl _),
   (mapKeyToAction_first_match (initialWorld 23 80).E 97).2.2.1 (by decide)⟩

/-- Counterexample to C16 as stated: in the key map that lists the unknown name `exit`
and then `quit`, both on the code 17 of Ctrl-q, the first entry with that code names
no action, yet `mapKeyToAction` goes on scanning and returns `Action.QUIT`. -/
theorem unknown_name_is_skipped :
    mapKeyToAction { config := { keyMap := exitQuitMap } } 17 = Action.QUIT ∧
    firstEntryAction 17 exitQuitMap = Action.NONE ∧
    mapKeyToAction { config := { keyMap := exitQuitMap } } 17 ≠ firstEntryAction 17 exitQuitMap := by
  decide

/-! ## Highlighter: line comments, and columns of the cursor -/

set_option maxRecDepth 100000 in
/-- Claim C15 (line comments), evaluated. On the row `s = "a"; // c` the `//` stands
after the closed string literal `"a"`, outside any string, but the quote that
closes the literal does not end the string state, so `; // c` is painted with the
string colour 5 and no comment span is started. On `x = a; // comment`, with no
quote before the `//`, the comment is painted with colour 4 to the end of the
row. -/
theorem comment_after_string_not_seen :
    drawHighlightedLine commentAfterStringRow 0 0 80 {} = some
      [⟨0, 's', 0⟩, ⟨1, ' ', 0⟩, ⟨2, '=', 0⟩, ⟨3, ' ', 0⟩, ⟨4, DQUOTE, 5⟩, ⟨5, 'a', 5⟩,
       ⟨6, DQUOTE, 5⟩, ⟨7, ';', 5⟩, ⟨8, ' ', 5⟩, ⟨9, '/', 5⟩, ⟨10, '/', 5⟩, ⟨11, ' ', 5⟩,
       ⟨12, 'c', 5⟩] ∧
    drawHighlightedLine commentRow 0 0 80 {} = some
      [⟨0, 'x', 0⟩, ⟨1, ' ', 0⟩, ⟨2, '=', 0⟩, ⟨3, ' ', 0⟩, ⟨4, 'a', 0⟩, ⟨5, ';', 0⟩, ⟨6, ' ', 0⟩,
       ⟨7, '/', 4⟩, ⟨8, '/', 4⟩, ⟨9, ' ', 4⟩, ⟨10, 'c', 4⟩, ⟨11, 'o', 4⟩, ⟨12, 'm', 4⟩,
       ⟨13, 'm', 4⟩, ⟨14, 'e', 4⟩, ⟨15, 'n', 4⟩, ⟨16, 't', 4⟩] := by
  decide

set_option maxRecDepth 100000 in
/-- Claim C17 (cursor and paint agree on columns), evaluated. In a row that starts with a
quote and a tab, and in a row that starts with `//` and a tab, the painter takes one
column for the tab (string branch, comment branch) and requests the `x` at column 4
and 5, while `editorRefreshScreen` expands the tab and puts the cursor for that `x`
at column 6. With the tab in plain text (`a`, tab, `x`) both agree on column 6. -/
theorem tab_in_string_or_comment_misplaces_cursor :
    (editorRefreshScreen tabInStringState = some (tabInStringState, 0, 6) ∧
      drawRowColoured tabInStringState 0
        = some [⟨2, DQUOTE, 5⟩, ⟨3, TAB, 5⟩, ⟨4, 'x', 5⟩]) ∧
    (editorRefreshScreen tabInCommentState = some (tabInCommentState, 0, 6) ∧
      drawRowColoured tabInCommentState 0
        = some [⟨2, '/', 4⟩, ⟨3, '/', 4⟩, ⟨4, TAB, 4⟩, ⟨5, 'x', 4⟩]) ∧
    (editorRefreshScreen tabInTextState = some (tabInTextState, 0, 6) ∧
      drawRowColoured tabInTextState 0
        = some [⟨2, 'a', 0⟩, ⟨3, ' ', 0⟩, ⟨4, ' ', 0⟩, ⟨5, ' ', 0⟩, ⟨6, 'x', 0⟩]) := by
  decide

/-! ## Tab key and undo; tab size from the configuration file -/

set_option maxRecDepth 100000 in
/-- Claim C18 (one undo slot per editing key), evaluated. From the initial state the key
`a` pushes one snapshot, but the Tab key pushes two (its case calls `pushUndo` and
then `insertChar`, which calls `pushUndo` again); so after the two keys `a`, Tab
and two Undo keys the buffer still holds the row `a`: the state before the first
key press is not restored. -/
theorem tab_key_pushes_twice :
    cursorInv (initialWorld 23 80).E ∧
    (∃ w1 w2, runKeys true [97] (initialWorld 23 80) = some w1 ∧
      editorProcessKeypress true 9 w1 = some w2 ∧
      w2.undoStack.length = w1.undoStack.length + 2) ∧
    (∃ w, runKeys true [97, 9, CTRL_KEY 'z', CTRL_KEY 'z'] (initialWorld 23 80) = some w ∧
      w.E.rows = [['a']] ∧ w.E.cx = 1 ∧ w.E.cy = 0 ∧
      w.E.rows ≠ (initialWorld 23 80).E.rows) := by
  refine ⟨by decide, ⟨_, _, rfl, rfl, by decide⟩, ⟨_, rfl, by decide⟩⟩

set_option maxRecDepth 100000 in
/-- Claim C19 (tabSize stays positive), evaluated. `loadConfig` stores `atoi` of the
value unchecked: `tabsize = 0` and the non-numeric `tabsize = wide` leave
`tabSize = 0`, `tabsize = -4` leaves `-4`; only the missing file keeps the default
4. With `tabSize = 0` a tab before the cursor makes `computeScreenX` divide by
zero, and so does the tab branch of `drawHighlightedLine`. -/
theorem tabsize_zero_is_stored :
    (loadConfig (some zeroTabConfig) {}).tabSize = 0 ∧
    (loadConfig (some wordTabConfig) {}).tabSize = 0 ∧
    (loadConfig (some negativeTabConfig) {}).tabSize = -4 ∧
    (loadConfig none {}).tabSize = 4 ∧
    computeScreenX { rows := [[TAB, 'a']], cx := 1,
                     config := loadConfig (some zeroTabConfig) {} } = none ∧
    drawHighlightedLine [TAB, 'a'] 0 0 80 { config := loadConfig (some zeroTabConfig) {} }
      = none := by
  decide

/-! ## Backspace after an insertion -/

theorem insertChar_on_row (c : Char) (E : EditorState) (st : List UndoSnapshot) (n m : Nat)
    (hcy : E.cy = n) (hcx : E.cx = m) (hn : n < E.rows.length) (hm : m ≤ E.rows[n].length) :
    insertChar c { E := E, undoStack := st } =
      some { E := { E with rows := E.rows.set n (E.rows[n].take m ++ c :: E.rows[n].drop m),
                           cx := (m : Int) + 1, dirty := true },
             undoStack := pushSnap st (snapshotOf E) } := by
  rcases E with ⟨cx, cy, ro, co, sr, sc, q, d, f, rows, cfg⟩
  simp only at hcy hcx hn hm
  subst hcy hcx
  have e1 : ¬ ((n : Int) < 0 ∨ (n : Int) > rows.length) := by omega
  have e2 : ¬ ((n : Int) = rows.length) := by omega
  have e3 : ¬ ((m : Int) < 0) := by omega
  have e4 : ¬ ((m : Int) > (rows[n].length : Int)) := by omega
  have e5 : (0 : Int) ≤ m := by omega
  have e6 : (m : Int) ≤ (rows[n].length : Int) := by omega
  simp only [insertChar, pushUndo, e1, e2, e3, e4, e5, e6, if_false, vecAt_natCast,
    List.getElem?_eq_getElem hn, and_self, if_true, Int.toNat_ofNat]

theorem insertNewline_on_row (E : EditorState) (st : List UndoSnapshot) (n m : Nat)
    (hcy : E.cy = n) (hcx : E.cx = m) (hn : n < E.rows.length) (hm : m ≤ E.rows[n].length) :
    insertNewline { E := E, undoStack := st } =
      some { E := { E with
               rows := (E.rows.set n (E.rows[n].take m)).take (n + 1) ++
                 E.rows[n].drop m :: (E.rows.set n (E.rows[n].take m)).drop (n + 1),
               cy := (n : Int) + 1, cx := 0, dirty := true },
             undoStack := pushSnap st (snapshotOf E) } := by
  rcases E with ⟨cx, cy, ro, co, sr, sc, q, d, f, rows, cfg⟩
  simp only at hcy hcx hn hm
  subst hcy hcx
  have e1 : ¬ ((n : Int) < 0 ∨ (n : Int) > rows.length) := by omega
  have e2 : ¬ ((n : Int) = rows.length) := by omega
  have e5 : (0 : Int) ≤ m := by omega
  have e6 : (m : Int) ≤ (rows[n].length : Int) := by omega
  simp only [insertNewline, pushUndo, e1, e2, e5, e6, if_false, vecAt_natCast,
    List.getElem?_eq_getElem hn, and_self, if_true, Int.toNat_ofNat]

theorem deleteChar_in_row (E : EditorState) (st : List UndoSnapshot) (n m : Nat)
    (hcy : E.cy = n) (hcx : E.cx = (m : Int) + 1) (hn : n < E.rows.length)
    (hm : m < E.rows[n].length) :
    deleteChar { E := E, undoStack := st } =
      some { E := { E with rows := E.rows.set n (E.rows[n].eraseIdx m),
                           cx := (m : Int), dirty := true },
             undoStack := pushSnap st (snapshotOf E) } := by
  rcases E with ⟨cx, cy, ro, co, sr, sc, q, d, f, rows, cfg⟩
  simp only at hcy hcx hn hm
  subst hcy hcx
  have e1 : ¬ ((n : Int) < 0 ∨ (n : Int) ≥ rows.length) := by omega
  have e2 : ¬ ((m : Int) + 1 = 0 ∧ (n : Int) = 0) := by omega
  have e3 : (m : Int) + 1 > 0 := by omega
  have e4 : (m : Int) + 1 - 1 = (m : Int) := by omega
  have e5 : (m : Int) < (rows[n].length : Int) := by omega
  simp only [deleteChar, pushUndo, e1, e2, e3, e4, e5, if_false, if_true, vecAt_natCast,
    List.getElem?_eq_getElem hn, Int.toNat_ofNat]

theorem deleteChar_at_row_start (E : EditorState) (st : List UndoSnapshot) (k : Nat)
    (hcy : E.cy = (k : Int) + 1) (hcx : E.cx = 0) (hk : k + 1 < E.rows.length) :
    deleteChar { E := E, undoStack := st } =
      some { E := { E with
               rows := (E.rows.set k (E.rows[k] ++ E.rows[k + 1])).eraseIdx (k + 1),
               cy := (k : Int), cx := (E.rows[k].length : Int), dirty := true },
             undoStack := pushSnap st (snapshotOf E) } := by
  rcases E with ⟨cx, cy, ro, co, sr, sc, q, d, f, rows, cfg⟩
  simp only at hcy hcx hk
  subst hcy hcx
  have hk0 : k < rows.length := by omega
  have e1 : ¬ ((k : Int) + 1 < 0 ∨ (k : Int) + 1 ≥ rows.length) := by omega
  have e2 : ¬ ((k : Int) + 1 = 0) := by omega
  have e3 : ¬ ((0 : Int) > 0) := by omega
  have e4 : (k : Int) + 1 - 1 = (k : Int) := by omega
  have e5 : ((k : Int) + 1) = ((k + 1 : Nat) : Int) := by omega
  have e6 : ((k + 1 : Nat) : Int) - 1 = (k : Int) := by omega
  simp only [deleteChar, pushUndo, e1, e2, e3, if_false, and_false]
  rw [e5]
  simp only [vecAt_natCast, e6, List.getElem?_eq_getElem hk, List.getElem?_eq_getElem hk0,
    Int.toNat_ofNat]

theorem eraseIdx_inserted (l : List Char) (m : Nat) (c : Char) (hm : m ≤ l.length) :
    (l.take m ++ c :: l.drop m).eraseIdx m = l := by
  induction l generalizing m with
  | nil =>
    have : m = 0 := by simpa using hm
    subst this
    rfl
  | cons a l ih =>
    cases m with
    | zero => rfl
    | succ m =>
      simp only [List.length_cons, Nat.add_le_add_iff_right] at hm
      simp [ih m hm]

theorem split_rows_eq (rows : List Row) (n m : Nat) (hn : n < rows.length) :
    (rows.set n (rows[n].take m)).take (n + 1) ++
        rows[n].drop m :: (rows.set n (rows[n].take m)).drop (n + 1)
      = rows.take n ++ rows[n].take m :: rows[n].drop m :: rows.drop (n + 1) := by
  rw [set_eq_take_cons_drop _ _ _ hn]
  have hl : (rows.take n).length = n := by simp; omega
  rw [List.take_append_eq_append_take, List.drop_append_eq_append_drop, hl]
  simp [List.take_take]

theorem set_getElem_same {α : Type} (l : List α) (n : Nat) (h : n < l.length) :
    l.set n l[n] = l := by
  rw [set_eq_take_cons_drop _ _ _ h]
  exact (eq_take_cons_drop l n h).symm

theorem merge_of_split (pre post : List Row) (a b : Row)
    (h : pre.length + 1 < (pre ++ a :: b :: post).length) :
    ((pre ++ a :: b :: post).set pre.length
        ((pre ++ a :: b :: post)[pre.length] ++ (pre ++ a :: b :: post)[pre.length + 1])).eraseIdx
        (pre.length + 1)
      = pre ++ (a ++ b) :: post ∧
    ((pre ++ a :: b :: post)[pre.length]).length = a.length := by
  induction pre with
  | nil => simp
  | cons r pre ih =>
    simp only [List.cons_append, List.length_cons, Nat.add_lt_add_iff_right] at h ih ⊢
    have := ih h
    simpa using this

/-- Claim C21 (backspace inverts an insertion). In a state with the cursor invariant and
the cursor on a row (`cy < len(rows)`), for every character `c`: `insertChar c`
followed by `deleteChar` runs without a fault and gives back the rows, `cx` and
`cy` from before the insertion; and `insertNewline` followed by `deleteChar`
(split, then merge) does the same. -/
theorem deleteChar_inverts_insert (w : World) (c : Char) (hinv : cursorInv w.E)
    (hcy : w.E.cy < w.E.rows.length) :
    (∃ w1 w2, insertChar c w = some w1 ∧ deleteChar w1 = some w2 ∧
      w2.E.rows = w.E.rows ∧ w2.E.cx = w.E.cx ∧ w2.E.cy = w.E.cy) ∧
    (∃ w1 w2, insertNewline w = some w1 ∧ deleteChar w1 = some w2 ∧
      w2.E.rows = w.E.rows ∧ w2.E.cx = w.E.cx ∧ w2.E.cy = w.E.cy) := by
  rcases w with ⟨E, st⟩
  obtain ⟨h0, h1, h2, h3⟩ := hinv
  simp only at h0 h1 h2 h3 hcy ⊢
  obtain ⟨n, hn⟩ := Int.eq_ofNat_of_zero_le h0
  have hnl : n < E.rows.length := by omega
  obtain ⟨hc0, hc1⟩ := h2 hcy
  rw [hn] at hc1
  simp only [Int.toNat_ofNat, List.getD_eq_getElem?_getD, List.getElem?_eq_getElem hnl,
    Option.getD_some] at hc1
  obtain ⟨m, hm⟩ := Int.eq_ofNat_of_zero_le hc0
  have hml : m ≤ E.rows[n].length := by omega
  constructor
  · have hi := insertChar_on_row c E st n m hn hm hnl hml
    have hd := deleteChar_in_row
      { E with rows := E.rows.set n (E.rows[n].take m ++ c :: E.rows[n].drop m),
               cx := (m : Int) + 1, dirty := true }
      (pushSnap st (snapshotOf E)) n m hn rfl (by simpa using hnl) (by simp; omega)
    refine ⟨_, _, hi, hd, ?_, hm.symm, rfl⟩
    simp only [List.getElem_set_self, List.set_set, eraseIdx_inserted _ _ _ hml,
      set_getElem_same _ _ hnl]
  · have hi := insertNewline_on_row E st n m hn hm hnl hml
    rw [split_rows_eq E.rows n m hnl] at hi
    have hpre : (E.rows.take n).length = n := by simp; omega
    have hlen : (E.rows.take n).length + 1 < (E.rows.take n ++ E.rows[n].take m ::
        E.rows[n].drop m :: E.rows.drop (n + 1)).length := by
      simp
    obtain ⟨hm1, hm2⟩ := merge_of_split (E.rows.take n) (E.rows.drop (n + 1))
      (E.rows[n].take m) (E.rows[n].drop m) hlen
    have hd := deleteChar_at_row_start
      { E with rows := E.rows.take n ++ E.rows[n].take m :: E.rows[n].drop m ::
                 E.rows.drop (n + 1),
               cy := ((E.rows.take n).length : Int) + 1, cx := 0, dirty := true }
      (pushSnap st (snapshotOf E)) (E.rows.take n).length rfl rfl hlen
    simp only [hm1, hm2] at hd
    rw [hpre] at hd
    refine ⟨_, _, hi, hd, ?_, ?_, hn.symm⟩
    · simp only [List.take_append_drop]
      exact (eq_take_cons_drop E.rows n hnl).symm
    · simp only [List.length_take]
      omega

/-- Witness of C21: the row `abcd` with the cursor at `cx = 2`. -/
theorem deleteChar_inverts_insert_witness :
    (∃ w1 w2, insertChar 'x' midRowState = some w1 ∧ deleteChar w1 = some w2 ∧
      w2.E.rows = midRowState.E.rows ∧ w2.E.cx = midRowState.E.cx ∧
      w2.E.cy = midRowState.E.cy) ∧
    (∃ w1 w2, insertNewline midRowState = some w1 ∧ deleteChar w1 = some w2 ∧
      w2.E.rows = midRowState.E.rows ∧ w2.E.cx = midRowState.E.cx ∧
      w2.E.cy = midRowState.E.cy) :=
  deleteChar_inverts_insert midRowState 'x' (by decide) (by decide)

/-! ## Highlighter: identifiers -/

theorem scanRun_ge (p : Char → Bool) (l : List Char) (x : Nat) : x ≤ scanRun p l x := by
  induction l generalizing x with
  | nil => exact le_refl _
  | cons c cs ih =>
    unfold scanRun
    split
    · exact le_trans (Nat.le_succ x) (ih (x + 1))
    · exact le_refl _

theorem scanRun_gt (p : Char → Bool) (row : Row) (x : Nat) (c : Char)
    (hx : row[x]? = some c) (hp : p c = true) : x < scanRun p (row.drop x) x := by
  have hlt : x < row.length := by
    by_contra h
    rw [List.getElem?_eq_none (by omega)] at hx
    exact absurd hx (by simp)
  rw [List.getElem?_eq_getElem hlt] at hx
  cases hx
  rw [List.drop_eq_getElem_cons hlt]
  unfold scanRun
  rw [if_pos hp]
  exact scanRun_ge p _ (x + 1)

theorem map_some_of_some {α β : Type} (o : Option α) (f : α → β) (h : ∃ a, o = some a) :
    ∃ b, o.map f = some b := by
  obtain ⟨a, rfl⟩ := h
  exact ⟨f a, rfl⟩

/-- With `tabSize ≠ 0` and fuel above the number of bytes left, the loop of
`drawHighlightedLine` ends with a list of cells. -/
theorem drawLoop_total (row : Row) (colOffset startCol maxCols tabSize : Int)
    (htab : tabSize ≠ 0) (fuel : Nat) (st : DrawState) (hfuel : row.length - st.x < fuel) :
    ∃ cells, drawLoop row colOffset startCol maxCols tabSize fuel st = some cells := by
  induction fuel generalizing st with
  | zero => omega
  | succ fuel ih =>
    unfold drawLoop
    by_cases hcond : st.x < row.length ∧ st.screenCol - startCol < maxCols
    · rw [if_neg (not_not.mpr hcond), List.getElem?_eq_getElem hcond.1]
      have hx := hcond.1
      have hdig : isdigit row[st.x] = true →
          st.x < scanRun (fun d => isdigit d || d = '.') (row.drop st.x) st.x :=
        fun h => scanRun_gt _ row st.x _ (List.getElem?_eq_getElem hx) (by simp [h])
      have hid : (isalpha row[st.x] || decide (row[st.x] = '_')) = true →
          st.x < scanRun (fun d => isalnum d || d = '_') (row.drop st.x) st.x := by
        intro h
        apply scanRun_gt _ row st.x _ (List.getElem?_eq_getElem hx)
        simp only [Bool.or_eq_true, decide_eq_true_eq] at h ⊢
        rcases h with h | h
        · exact Or.inl (by simp [isalnum, h])
        · exact Or.inr h
      simp only []
      split_ifs
      all_goals first
        | exact ⟨_, rfl⟩
        | (apply ih; simp only []; omega)
        | (apply map_some_of_some; apply ih; simp only []; omega)
        | (apply map_some_of_some; apply ih; simp only []
           have h1 := hdig (by assumption); omega)
        | (apply map_some_of_some; apply ih; simp only []
           have h2 := hid (by assumption); omega)
    · rw [if_pos hcond]
      exact ⟨_, rfl⟩


theorem identifier_first_byte (c : Char) (h : isalpha c = true ∨ c = '_') :
    c ≠ '/' ∧ c ≠ DQUOTE ∧ c ≠ SQUOTE ∧ isdigit c = false := by
  rcases h with h | h
  · refine ⟨?_, ?_, ?_, ?_⟩
    · rintro rfl; exact absurd h (by decide)
    · rintro rfl; exact absurd h (by decide)
    · rintro rfl; exact absurd h (by decide)
    · simp only [isalpha, isdigit, Bool.or_eq_true, Bool.and_eq_true, decide_eq_true_eq,
        Bool.and_eq_false_iff, decide_eq_false_iff_not] at h ⊢
      omega
  · subst h
    decide

theorem identifierPair_eq (word : Row) :
    (if isKeyword word = true then 1 else if isTypeLike word = true then 2 else 0)
      = identifierClass word := by
  simp [isKeyword, isTypeLike, identifierClass, List.contains_iff_exists_mem_beq]

theorem keyword_not_type (word : Row) : ¬ (isKeyword word = true ∧ isTypeLike word = true) := by
  rintro ⟨h1, h2⟩
  simp only [isKeyword, isTypeLike, List.contains_iff_exists_mem_beq, beq_iff_eq,
    exists_eq_right'] at h1 h2
  have hdisj : ∀ k ∈ keywords, k ∉ typeNames := by decide
  exact hdisj _ h1 h2


theorem mvaddnstr_of_pos (col : Int) (str : List Char) (n : Int) (pair : Nat) (hn : 0 ≤ n) :
    mvaddnstr col str n pair = cellsFrom pair col (str.take n.toNat) := by
  unfold mvaddnstr
  rw [if_neg (by omega)]

set_option maxRecDepth 100000 in
/-- The identifier branch, where the loop reaches it. At a turn of the painting loop
with the flags `inString` and `inLineComment` false, past the skip-until-visible
test and inside the column limit, an alphabetic or underscore byte at `x` starts an
identifier span: the span `row[x..x1)` is the maximal run of alphanumeric or
underscore bytes from `x`, its bytes are painted from `screenCol` on (as far as the
column limit allows) with one colour pair, the loop goes on at `x1`, and with
enough fuel it returns. The pair is keyword (1) iff the word is in the keyword
list, otherwise type (2) iff it is in the type list, otherwise plain (0); no word
is in both lists. On rows made of one word, unscrolled, `return` is a keyword,
`returnValue`, `Return` and `int1` are plain, `int` is a type. The flag `inString`
stays true after the first quote of a row, and bytes before the visible column
are passed over one by one, so this branch is not reached there. -/
theorem identifier_branch_run (row : Row) (colOffset startCol maxCols tabSize : Int) (fuel : Nat)
    (st : DrawState) (c : Char) (htab : tabSize ≠ 0)
    (hstr : st.inString = false) (hcom : st.inLineComment = false)
    (hc : row[st.x]? = some c) (halpha : isalpha c = true ∨ c = '_')
    (hlim : st.screenCol - startCol < maxCols) (hvis : startCol + colOffset ≤ st.screenCol)
    (hfuel : row.length - st.x ≤ fuel) :
    (∃ (x1 : Nat) (rest : List Cell),
      st.x < x1 ∧ x1 ≤ row.length ∧
      (∀ i, st.x ≤ i → i < x1 → ∃ d, row[i]? = some d ∧ (isalnum d = true ∨ d = '_')) ∧
      (x1 = row.length ∨ ∃ d, row[x1]? = some d ∧ ¬ (isalnum d = true ∨ d = '_')) ∧
      drawLoop row colOffset startCol maxCols tabSize fuel
        { st with x := x1, screenCol := st.screenCol + ((x1 : Int) - st.x) } = some rest ∧
      drawLoop row colOffset startCol maxCols tabSize (fuel + 1) st =
        some (cellsFrom (identifierClass ((row.drop st.x).take (x1 - st.x))) st.screenCol
            (((row.drop st.x).take (x1 - st.x)).take
              (maxCols - (st.screenCol - startCol)).toNat) ++ rest)) ∧
    (∀ word : Row, identifierClass word = 1 ↔ isKeyword word = true) ∧
    (∀ word : Row, identifierClass word = 2 ↔ (isKeyword word = false ∧ isTypeLike word = true)) ∧
    (∀ word : Row, ¬ (isKeyword word = true ∧ isTypeLike word = true)) ∧
    identifierClass returnRow = 1 ∧
    identifierClass returnValueRow = 0 ∧
    identifierClass ['R', 'e', 't', 'u', 'r', 'n'] = 0 ∧
    identifierClass ['i', 'n', 't', '1'] = 0 ∧
    identifierClass ['i', 'n', 't'] = 2 ∧
    drawHighlightedLine returnRow 0 0 80 {} = some (cellsFrom 1 0 returnRow) ∧
    drawHighlightedLine returnValueRow 0 0 80 {} = some (cellsFrom 0 0 returnValueRow) ∧
    drawHighlightedLine ['R', 'e', 't', 'u', 'r', 'n'] 0 0 80 {}
      = some (cellsFrom 0 0 ['R', 'e', 't', 'u', 'r', 'n']) ∧
    drawHighlightedLine ['i', 'n', 't', '1'] 0 0 80 {}
      = some (cellsFrom 0 0 ['i', 'n', 't', '1']) := by
  refine ⟨?_, ?_, ?_, keyword_not_type, by decide, by decide, by decide, by decide, by decide,
    by decide, by decide, by decide, by decide⟩
  · rcases st with ⟨x, scol, inS, sCh, inC⟩
    simp only at hstr hcom hc hlim hvis hfuel ⊢
    subst hstr hcom
    have hx : x < row.length := by
      by_contra h
      rw [List.getElem?_eq_none (by omega)] at hc
      exact absurd hc (by simp)
    obtain ⟨f1, f2, f3, f4⟩ := identifier_first_byte c halpha
    have hp : (isalnum c || decide (c = '_')) = true := by
      rcases halpha with h | h
      · simp [isalnum, h]
      · simp [h]
    have hgt := scanRun_gt (fun d => isalnum d || d = '_') row x c hc hp
    obtain ⟨s1, s2, s3, s4⟩ := scanRun_spec (fun d => isalnum d || d = '_') row x (le_of_lt hx)
    obtain ⟨rest, hrest⟩ := drawLoop_total row colOffset startCol maxCols tabSize htab fuel
      { x := scanRun (fun d => isalnum d || d = '_') (row.drop x) x,
        screenCol := scol + ((scanRun (fun d => isalnum d || d = '_') (row.drop x) x : Int) - x),
        inString := false, stringChar := sCh, inLineComment := false }
      (by simp only []; omega)
    refine ⟨scanRun (fun d => isalnum d || d = '_') (row.drop x) x, rest, hgt, s2, ?_, ?_,
      hrest, ?_⟩
    · intro i h1 h2
      obtain ⟨d, hd1, hd2⟩ := s3 i h1 h2
      exact ⟨d, hd1, by simpa using hd2⟩
    · rcases s4 with s4 | ⟨d, hd1, hd2⟩
      · exact Or.inl s4
      · exact Or.inr ⟨d, hd1, by simpa using hd2⟩
    · have hcs : commentStart row
          { x := x, screenCol := scol, inString := false, stringChar := sCh,
            inLineComment := false } c = false := by simp [commentStart, f1]
      have halpha' : (isalpha c || decide (c = '_')) = true := by
        rcases halpha with h | h
        · simp [h]
        · simp [h]
      rw [drawLoop]
      rw [if_neg (not_not.mpr ⟨hx, hlim⟩), hc]
      simp only [hcs, f2, f3, f4, halpha', hrest, if_neg (not_lt.mpr hvis),
        Bool.false_eq_true, if_false, if_true, decide_False, Bool.or_false, Bool.not_false,
        Bool.and_false, Bool.true_and, Option.map_some']
      rw [mvaddnstr_of_pos _ _ _ _ (by omega)]
      rw [identifierPair_eq, List.take_take]
      have e : (min (((scanRun (fun d => isalnum d || d = '_') (row.drop x) x : Nat) : Int) - (x : Int))
            (maxCols - (scol - startCol))).toNat
          = min (maxCols - (scol - startCol)).toNat
            (scanRun (fun d => isalnum d || d = '_') (row.drop x) x - x) := by
        omega
      rw [e]
  · intro word
    unfold identifierClass
    simp only [isKeyword, List.contains_iff_exists_mem_beq, beq_iff_eq, exists_eq_right']
    split_ifs <;> simp_all
  · intro word
    unfold identifierClass
    simp only [isKeyword, isTypeLike, List.contains_iff_exists_mem_beq, beq_iff_eq,
      exists_eq_right']
    split_ifs <;> simp_all

/-- The identifier branch on the row `return`, met at its first byte by the first
turn of the loop. -/
theorem identifier_branch_run_example :
    ∃ (x1 : Nat) (rest : List Cell),
      0 < x1 ∧ x1 ≤ returnRow.length ∧
      (∀ i, 0 ≤ i → i < x1 → ∃ d, returnRow[i]? = some d ∧ (isalnum d = true ∨ d = '_')) ∧
      (x1 = returnRow.length ∨
        ∃ d, returnRow[x1]? = some d ∧ ¬ (isalnum d = true ∨ d = '_')) ∧
      drawLoop returnRow 0 0 80 4 6 { x := x1, screenCol := 0 + ((x1 : Int) - (0 : Nat)) }
        = some rest ∧
      drawLoop returnRow 0 0 80 4 (6 + 1) {} =
        some (cellsFrom (identifierClass ((returnRow.drop 0).take (x1 - 0))) 0
            (((returnRow.drop 0).take (x1 - 0)).take (80 - (0 - 0 : Int)).toNat) ++ rest) :=
  (identifier_branch_run returnRow 0 0 80 4 6 {} 'r' (by decide) rfl rfl (by decide)
    (Or.inl (by decide)) (by decide) (by decide) (by decide)).1

set_option maxRecDepth 100000 in
/-- Claim C22 (identifiers), evaluated. On the row `"a" return` the word `return` stands
after the closed string literal `"a"`, outside string and comment, and it is in the
keyword list, but the quote that closes the literal does not end the string state:
all ten bytes are painted with the string colour 5, and `return` is not painted as
a keyword (1), as it is on the row `return`. And the match is not on the whole
word once the window is scrolled: `print` is in neither list and is painted plain
at `colOffset = 0`, but at `colOffset = 2` the bytes `p` and `r` are passed over
one by one and the identifier branch starts at the `i`, so `int` is painted as a
type (2). That happens to the row `print` below the row `abcdefghijkl` when the
cursor at `cx = 11` of the first row scrolls a window of 10 columns to
`colOffset = 2`. -/
theorem identifier_misclassified :
    isKeyword returnRow = true ∧
    drawHighlightedLine returnRow 0 0 80 {} = some
      [⟨0, 'r', 1⟩, ⟨1, 'e', 1⟩, ⟨2, 't', 1⟩, ⟨3, 'u', 1⟩, ⟨4, 'r', 1⟩, ⟨5, 'n', 1⟩] ∧
    drawHighlightedLine returnAfterStringRow 0 0 80 {} = some
      [⟨0, DQUOTE, 5⟩, ⟨1, 'a', 5⟩, ⟨2, DQUOTE, 5⟩, ⟨3, ' ', 5⟩, ⟨4, 'r', 5⟩, ⟨5, 'e', 5⟩,
       ⟨6, 't', 5⟩, ⟨7, 'u', 5⟩, ⟨8, 'r', 5⟩, ⟨9, 'n', 5⟩] ∧
    (isKeyword printRow = false ∧ isTypeLike printRow = false) ∧
    drawHighlightedLine printRow 0 0 80 {} = some
      [⟨0, 'p', 0⟩, ⟨1, 'r', 0⟩, ⟨2, 'i', 0⟩, ⟨3, 'n', 0⟩, ⟨4, 't', 0⟩] ∧
    drawHighlightedLine printRow 2 0 80 {} = some [⟨2, 'i', 2⟩, ⟨3, 'n', 2⟩, ⟨4, 't', 2⟩] ∧
    (editorScroll printBelowWideRowState).colOffset = 2 ∧
    drawRowColoured printBelowWideRowState 1 = some
      [⟨2, 'p', 0⟩, ⟨3, 'r', 0⟩, ⟨4, 'i', 0⟩, ⟨5, 'n', 0⟩, ⟨6, 't', 0⟩] ∧
    drawRowColoured (editorScroll printBelowWideRowState) 1 = some
      [⟨4, 'i', 2⟩, ⟨5, 'n', 2⟩, ⟨6, 't', 2⟩] := by
  decide

/-! ## Horizontal scroll: coloured and plain path -/

set_option maxRecDepth 100000 in
/-- Claim C23 (coloured and plain paths under horizontal scroll), evaluated. For the row
`abcdefghijkl` in a window of 10 columns with the cursor at `cx = 11`,
`editorScroll` sets `colOffset = 2`, and the text columns start at 2. The plain
path paints `row[2..10)`, `cdefghij`, in the columns 2 to 9. The coloured path
counts the two skipped bytes as columns: it paints `cdefgh` in the columns 4 to 9
and leaves the columns 2 and 3 empty. With `colOffset = 0` both paths paint
`abcdefgh` in the columns 2 to 9. -/
theorem coloured_path_does_not_scroll :
    (editorScroll wideRowState).colOffset = 2 ∧
    lineNumberWidth (editorScroll wideRowState) = 2 ∧
    (drawTextRow false (editorScroll wideRowState) 0).map cellText =
      some [(2, 'c'), (3, 'd'), (4, 'e'), (5, 'f'), (6, 'g'), (7, 'h'), (8, 'i'), (9, 'j')] ∧
    (drawTextRow true (editorScroll wideRowState) 0).map cellText =
      some [(4, 'c'), (5, 'd'), (6, 'e'), (7, 'f'), (8, 'g'), (9, 'h')] ∧
    (drawTextRow false wideRowState 0).map cellText =
      some [(2, 'a'), (3, 'b'), (4, 'c'), (5, 'd'), (6, 'e'), (7, 'f'), (8, 'g'), (9, 'h')] ∧
    (drawTextRow true wideRowState 0).map cellText =
      some [(2, 'a'), (3, 'b'), (4, 'c'), (5, 'd'), (6, 'e'), (7, 'f'), (8, 'g'), (9, 'h')] := by
  decide

end Lume
